import Mathlib

/-!
# Verification of the kre8ntemjs template fuzzer

Shallow embedding of the generation / execution / triage pipeline of the
`kre8ntemjs` repository (crates `kre8ntemjs_core` and `kre8ntemjs_cli`).
Strings are modelled as `List Char`; all inputs appearing in concrete
theorems are ASCII, for which Rust byte offsets and `List Char` positions
coincide.  Randomness (`rand::Rng` draws) is modelled as an explicit stream
`ℕ → ℕ` (resp. `ℕ → ℚ` for `gen::<f64>()` coins), indexed by the number of
draws made so far; every realizable draw sequence corresponds to a stream.
-/

namespace Kre8

/-! ## Character classes and the hole-token vocabulary -/

/-- A character admissible inside a hole token, i.e. matching `[a-z_]`. -/
def isHoleChar (c : Char) : Bool := ('a' ≤ c && c ≤ 'z') || c = '_'

/-- `"<var>"` (identifier hole). -/
def tokVar : List Char := String.toList "<var>"

/-- `"<integer>"` (integer hole). -/
def tokInt : List Char := String.toList "<integer>"

/-- `"<code_str>"` (quoted-code hole). -/
def tokStr : List Char := String.toList "<code_str>"

/-- The fixed hole vocabulary, in the order of `Template::tokens()`. -/
def vocab : List (List Char) := [tokVar, tokInt, tokStr]

/-- `p` is a full match of the pattern `<[a-z_]+>`. -/
def holePat (p : List Char) : Prop :=
  ∃ mid, mid ≠ [] ∧ (∀ c ∈ mid, isHoleChar c = true) ∧ p = '<' :: (mid ++ ['>'])

/-- Executable version of `holePat`. -/
def holePatB : List Char → Bool
  | [] => false
  | c :: rest =>
      decide (c = '<') && rest.dropLast.all isHoleChar &&
        decide (rest.getLast? = some '>') && decide (2 ≤ rest.length)

theorem holePat_iff (p : List Char) : holePat p ↔ holePatB p = true := by
  constructor
  · rintro ⟨mid, hne, hall, rfl⟩
    simp only [holePatB, Bool.and_eq_true, List.all_eq_true, decide_eq_true_eq]
    refine ⟨⟨⟨trivial, ?_⟩, ?_⟩, ?_⟩
    · intro c hc
      rw [List.dropLast_concat] at hc
      exact hall c hc
    · rw [List.getLast?_concat]
    · have h1 : 1 ≤ mid.length := List.length_pos.mpr hne
      simp only [List.length_append, List.length_cons, List.length_nil]
      omega
  · intro h
    match p with
    | [] => simp [holePatB] at h
    | c :: rest =>
      simp only [holePatB, Bool.and_eq_true, List.all_eq_true, decide_eq_true_eq] at h
      obtain ⟨⟨⟨rfl, hall⟩, hlast⟩, hlen⟩ := h
      rcases List.eq_nil_or_concat rest with rfl | ⟨l, a, rfl⟩
      · simp at hlen
      · rw [List.concat_eq_append] at hlast hall hlen ⊢
        rw [List.getLast?_concat] at hlast
        injection hlast with hlast
        subst hlast
        refine ⟨l, ?_, ?_, rfl⟩
        · intro h0
          subst h0
          simp at hlen
        · intro c hc
          rw [List.dropLast_concat] at hall
          exact hall c hc

/-- Token closure: every full match of `<[a-z_]+>` occurring in `s` is a
vocabulary token.  This is the invariant claimed by the spec. -/
def closed (s : List Char) : Prop :=
  ∀ p, holePat p → p <:+: s → p ∈ vocab

/-- Scan a hole pattern at the head of a list. -/
def patScan : List Char → Option (List Char)
  | [] => none
  | c :: r =>
      if c = '<' then
        if (r.takeWhile isHoleChar) ≠ [] ∧ (r.drop (r.takeWhile isHoleChar).length).head? = some '>'
        then some ('<' :: ((r.takeWhile isHoleChar) ++ ['>']))
        else none
      else none

/-- The hole pattern starting at position `i` of `s`, when there is one. -/
def patternAt (s : List Char) (i : ℕ) : Option (List Char) :=
  patScan (s.drop i)

/-- All hole patterns occurring in `s`. -/
def patternsOf (s : List Char) : List (List Char) :=
  (List.range s.length).filterMap (patternAt s)

/-- Executable token closure. -/
def closedB (s : List Char) : Bool :=
  (patternsOf s).all (fun p => decide (p ∈ vocab))

theorem patScan_sound {l p : List Char} (h : patScan l = some p) :
    holePat p ∧ ∃ t, l = p ++ t := by
  cases l with
  | nil => exact absurd h (by simp [patScan])
  | cons c r =>
    have hrw : patScan (c :: r) =
        if c = '<' then
          if (r.takeWhile isHoleChar) ≠ [] ∧
              (r.drop (r.takeWhile isHoleChar).length).head? = some '>'
          then some ('<' :: ((r.takeWhile isHoleChar) ++ ['>']))
          else none
        else none := rfl
    rw [hrw] at h
    split_ifs at h with hc hcond
    · obtain ⟨hmid, hhead⟩ := hcond
      subst hc
      injection h with h
      subst h
      obtain ⟨q, hq⟩ := (List.takeWhile_prefix (l := r) (p := isHoleChar))
      have hdropq : r.drop (r.takeWhile isHoleChar).length = q := by
        have h2 : r.drop (r.takeWhile isHoleChar).length =
            ((r.takeWhile isHoleChar) ++ q).drop (r.takeWhile isHoleChar).length := by
          rw [hq]
        rw [h2, List.drop_left]
      rw [hdropq] at hhead
      obtain ⟨t, rfl⟩ : ∃ t, q = '>' :: t := by
        cases q with
        | nil => simp at hhead
        | cons a t =>
          simp only [List.head?_cons, Option.some.injEq] at hhead
          exact ⟨t, by rw [hhead]⟩
      refine ⟨⟨r.takeWhile isHoleChar, hmid,
        fun c hc => List.mem_takeWhile_imp hc, rfl⟩, t, ?_⟩
      rw [show '<' :: (r.takeWhile isHoleChar ++ ['>']) ++ t =
        '<' :: (r.takeWhile isHoleChar ++ '>' :: t) from by simp, hq]

theorem patternAt_sound {s : List Char} {i : ℕ} {p : List Char}
    (h : patternAt s i = some p) : holePat p ∧ p <:+: s := by
  obtain ⟨hp, t, ht⟩ := patScan_sound h
  refine ⟨hp, s.take i, t, ?_⟩
  have h2 : s.take i ++ (p ++ t) = s := by
    rw [← ht]; exact List.take_append_drop i s
  rw [show s.take i ++ p ++ t = s.take i ++ (p ++ t) from by simp, h2]

theorem takeWhile_holeChar_stop {mid y : List Char}
    (hall : ∀ c ∈ mid, isHoleChar c = true) :
    (mid ++ '>' :: y).takeWhile isHoleChar = mid := by
  induction mid with
  | nil =>
    simp only [List.nil_append, List.takeWhile_cons]
    rw [show isHoleChar '>' = false from by decide]
    simp
  | cons c cs ih =>
    simp only [List.cons_append, List.takeWhile_cons]
    rw [hall c (by simp)]
    simp only [if_true]
    rw [ih (fun d hd => hall d (by simp [hd]))]

theorem patternAt_complete {s x y mid : List Char}
    (hmid : mid ≠ []) (hall : ∀ c ∈ mid, isHoleChar c = true)
    (hs : s = x ++ ('<' :: (mid ++ ['>'])) ++ y) :
    patternAt s x.length = some ('<' :: (mid ++ ['>'])) := by
  have hdrop : s.drop x.length = '<' :: (mid ++ '>' :: y) := by
    rw [hs, show x ++ ('<' :: (mid ++ ['>'])) ++ y = x ++ ('<' :: (mid ++ '>' :: y)) from by simp]
    exact List.drop_left _ _
  unfold patternAt
  rw [hdrop]
  have hrw : patScan ('<' :: (mid ++ '>' :: y)) =
      if ('<' : Char) = '<' then
        if ((mid ++ '>' :: y).takeWhile isHoleChar) ≠ [] ∧
            ((mid ++ '>' :: y).drop ((mid ++ '>' :: y).takeWhile isHoleChar).length).head? =
              some '>'
        then some ('<' :: (((mid ++ '>' :: y).takeWhile isHoleChar) ++ ['>']))
        else none
      else none := rfl
  rw [hrw, if_pos rfl, takeWhile_holeChar_stop hall]
  rw [if_pos ⟨hmid, by rw [List.drop_left]; simp⟩]

theorem closed_iff_closedB (s : List Char) : closed s ↔ closedB s = true := by
  constructor
  · intro h
    unfold closedB
    rw [List.all_eq_true]
    intro p hp
    obtain ⟨i, _, hpat⟩ := List.mem_filterMap.mp hp
    obtain ⟨h1, h2⟩ := patternAt_sound hpat
    exact decide_eq_true (h p h1 h2)
  · intro h p hp hinf
    obtain ⟨mid, hmid, hall, rfl⟩ := hp
    obtain ⟨x, y, hxy⟩ := hinf
    have hpat := patternAt_complete hmid hall hxy.symm
    unfold closedB at h
    rw [List.all_eq_true] at h
    have hmem : ('<' :: (mid ++ ['>'])) ∈ patternsOf s := by
      apply List.mem_filterMap.mpr
      refine ⟨x.length, ?_, hpat⟩
      apply List.mem_range.mpr
      have hlen : s.length = x.length + (mid.length + 2) + y.length := by
        rw [← hxy]
        simp only [List.length_append, List.length_cons, List.length_nil]
      omega
    exact decide_eq_true_eq.mp (h _ hmem)

theorem closed_of_closedB {s : List Char} (h : closedB s = true) : closed s :=
  (closed_iff_closedB s).mpr h

/-! ## Basic substring search, mirroring Rust `str::find` -/

/-- `leadsWith p l` iff `p` is a prefix of `l` (Rust `str::starts_with`). -/
def leadsWith : List Char → List Char → Bool
  | [], _ => true
  | _ :: _, [] => false
  | a :: as, b :: bs => decide (a = b) && leadsWith as bs

theorem leadsWith_iff (p l : List Char) : leadsWith p l = true ↔ p <+: l := by
  induction p generalizing l with
  | nil => simp [leadsWith]
  | cons a as ih =>
    cases l with
    | nil =>
      simp only [leadsWith]
      constructor
      · intro h; exact absurd h (by simp)
      · rintro ⟨t, ht⟩; exact absurd ht (by simp)
    | cons b bs =>
      simp only [leadsWith, Bool.and_eq_true, decide_eq_true_eq]
      rw [ih]
      constructor
      · rintro ⟨rfl, t, rfl⟩; exact ⟨t, rfl⟩
      · rintro ⟨t, ht⟩
        injection ht with h1 h2
        exact ⟨h1, t, h2⟩

/-- Split `s` at the first occurrence of `tok` (Rust `str::find`):
returns `(before, after)` with `s = before ++ tok ++ after` and no earlier
occurrence.  `none` when `tok` does not occur. -/
def splitFirst (tok : List Char) : List Char → Option (List Char × List Char)
  | [] => if tok = [] then some ([], []) else none
  | c :: r =>
      if leadsWith tok (c :: r) then some ([], (c :: r).drop tok.length)
      else match splitFirst tok r with
           | some (a, b) => some (c :: a, b)
           | none => none

theorem splitFirst_eq {tok s a b : List Char} (hne : tok ≠ [])
    (h : splitFirst tok s = some (a, b)) : s = a ++ tok ++ b := by
  induction s generalizing a b with
  | nil =>
    unfold splitFirst at h
    rw [if_neg hne] at h
    exact absurd h (by simp)
  | cons c r ih =>
    unfold splitFirst at h
    split at h
    next hlw =>
      obtain ⟨t, ht⟩ := (leadsWith_iff _ _).mp hlw
      injection h with h
      have ha : a = [] := (Prod.mk.inj h.symm).1
      have hb : b = (c :: r).drop tok.length := (Prod.mk.inj h.symm).2
      subst ha
      rw [hb, ← ht, List.drop_left]
      simp
    next =>
      revert h
      cases hrec : splitFirst tok r with
      | some ab =>
        match ab with
        | (a', b') =>
          intro h
          injection h with h
          have ha : a = c :: a' := (Prod.mk.inj h.symm).1
          have hb : b = b' := (Prod.mk.inj h.symm).2
          rw [ha, hb, show (c :: a') ++ tok ++ b' = c :: (a' ++ tok ++ b') from by simp,
            ← ih hrec]
      | none => intro h; exact absurd h (by simp)

theorem splitFirst_none {tok s : List Char} (hne : tok ≠ [])
    (h : splitFirst tok s = none) : ¬ tok <:+: s := by
  induction s with
  | nil =>
    rintro ⟨x, y, hxy⟩
    have : tok = [] := by
      cases x <;> cases tok <;> simp_all
    exact hne this
  | cons c r ih =>
    unfold splitFirst at h
    split at h
    next => exact absurd h (by simp)
    next hlw =>
      intro hinf
      rw [List.infix_cons_iff] at hinf
      rcases hinf with hpre | hinf
      · exact absurd ((leadsWith_iff _ _).mpr hpre) (by simp [hlw])
      · revert hinf
        apply ih
        revert h
        cases hrec : splitFirst tok r with
        | none => intro _; rfl
        | some ab =>
          match ab with
          | (a, b) => intro h; exact absurd h (by simp)

/-! ## Occurrence decomposition across appends -/

/-- An infix of `a ++ b` is an infix of `a`, an infix of `b`, or splits into a
nonempty suffix of `a` followed by a nonempty prefix of `b`. -/
theorem infix_split {α : Type} {p a b : List α} (h : p <:+: a ++ b) :
    p <:+: a ∨ p <:+: b ∨
      ∃ p1 p2, p = p1 ++ p2 ∧ p1 ≠ [] ∧ p2 ≠ [] ∧ p1 <:+ a ∧ p2 <+: b := by
  obtain ⟨s, t, hst⟩ := h
  rw [List.append_assoc] at hst
  rcases List.append_eq_append_iff.mp hst with ⟨a', ha, happ⟩ | ⟨c', _, hb⟩
  · rcases List.append_eq_append_iff.mp happ with ⟨u, hu1, _⟩ | ⟨u, hp, hbu⟩
    · -- a' = p ++ u : p sits inside a
      refine Or.inl ⟨s, u, ?_⟩
      rw [ha, hu1]
      simp
    · -- p = a' ++ u, b = u ++ t
      rcases eq_or_ne a' [] with rfl | ha'
      · rw [List.nil_append] at hp
        exact Or.inr (Or.inl ⟨[], t, by rw [hbu, ← hp]; rfl⟩)
      · rcases eq_or_ne u [] with rfl | hu
        · refine Or.inl ⟨s, [], ?_⟩
          rw [List.append_nil] at hp
          rw [ha, ← hp]
          simp
        · exact Or.inr (Or.inr ⟨a', u, hp, ha', hu, ⟨s, ha.symm⟩, ⟨t, hbu.symm⟩⟩)
  · refine Or.inr (Or.inl ⟨c', t, ?_⟩)
    rw [hb]
    simp

/-! ## Structural facts about hole patterns -/

theorem holePat_mem_chars {p : List Char} (hp : holePat p) {c : Char} (hc : c ∈ p) :
    c = '<' ∨ c = '>' ∨ isHoleChar c = true := by
  obtain ⟨mid, _, hall, rfl⟩ := hp
  rcases List.mem_cons.mp hc with rfl | hc
  · exact Or.inl rfl
  · rcases List.mem_append.mp hc with hc | hc
    · exact Or.inr (Or.inr (hall c hc))
    · rcases List.mem_singleton.mp hc with rfl
      exact Or.inr (Or.inl rfl)

/-- A hole pattern contains no newline. -/
theorem holePat_no_newline {p : List Char} (hp : holePat p) : '\n' ∉ p := by
  intro hc
  rcases holePat_mem_chars hp hc with h | h | h <;> simp_all [isHoleChar]

/-- A hole pattern cannot be split after an interior `'>'`. -/
theorem holePat_no_inner_gt {p p1 p2 : List Char} (hp : holePat p) (hsplit : p = p1 ++ p2)
    (h1 : p1.getLast? = some '>') (h2 : p2 ≠ []) : False := by
  obtain ⟨mid, hmid, hall, hform⟩ := hp
  match p1 with
  | [] => simp at h1
  | c :: t =>
    have hc : c = '<' := by
      rw [hform] at hsplit
      exact (List.cons.inj hsplit).1.symm
    subst hc
    have hteq : t ++ p2 = mid ++ ['>'] := by
      rw [hform] at hsplit
      exact (List.cons.inj hsplit).2.symm
    have htne : t ≠ [] := by
      intro h0
      subst h0
      simp at h1
    have htlast : t.getLast? = some '>' := by
      cases t with
      | nil => exact absurd rfl htne
      | cons x xs =>
        rw [List.getLast?_cons_cons] at h1
        exact h1
    have hgt_mem : '>' ∈ mid := by
      rcases List.append_eq_append_iff.mp hteq with ⟨a', ha1, _⟩ | ⟨c', hc1, hc2⟩
      · -- mid = t ++ a'
        have := List.getLast_mem htne
        rw [List.getLast?_eq_getLast _ htne] at htlast
        injection htlast with hl
        rw [ha1]
        exact List.mem_append.mpr (Or.inl (hl ▸ this))
      · -- t = mid ++ c', ['>'] = c' ++ p2
        rcases eq_or_ne c' [] with rfl | hc'
        · rw [List.append_nil] at hc1
          subst hc1
          have := List.getLast_mem htne
          rw [List.getLast?_eq_getLast _ htne] at htlast
          injection htlast with hl
          exact hl ▸ this
        · exfalso
          have : c' = ['>'] ∧ p2 = [] := by
            cases c' with
            | nil => exact absurd rfl hc'
            | cons x xs =>
              injection hc2 with hx hxs
              subst hx
              constructor
              · cases xs with
                | nil => rfl
                | cons y ys => simp at hxs
              · cases xs with
                | nil => simpa using hxs
                | cons y ys => simp at hxs
          exact h2 this.2
    have := hall '>' hgt_mem
    simp [isHoleChar] at this

/-- A hole pattern cannot be split before an interior `'<'`. -/
theorem holePat_no_inner_lt {p p1 p2 : List Char} (hp : holePat p) (hsplit : p = p1 ++ p2)
    (h1 : p2.head? = some '<') (h2 : p1 ≠ []) : False := by
  obtain ⟨mid, hmid, hall, hform⟩ := hp
  match p1 with
  | [] => exact h2 rfl
  | c :: t =>
    have hc : c = '<' := by
      rw [hform] at hsplit
      exact (List.cons.inj hsplit).1.symm
    subst hc
    have hteq : t ++ p2 = mid ++ ['>'] := by
      rw [hform] at hsplit
      exact (List.cons.inj hsplit).2.symm
    obtain ⟨q, hq⟩ : ∃ q, p2 = '<' :: q := by
      cases p2 with
      | nil => simp at h1
      | cons x xs =>
        simp only [List.head?_cons, Option.some.injEq] at h1
        exact ⟨xs, by rw [h1]⟩
    subst hq
    have hlt_mem : '<' ∈ mid ++ ['>'] := by
      rw [← hteq]
      exact List.mem_append.mpr (Or.inr (by simp))
    rcases List.mem_append.mp hlt_mem with hm | hm
    · have := hall '<' hm
      simp [isHoleChar] at this
    · exact absurd (List.mem_singleton.mp hm) (by decide)

/-- A hole pattern occurring inside a string whose only `'<'` is at the head
and whose only `'>'` is at the end must be the whole string. -/
theorem holePat_infix_delimited {p t : List Char} (hp : holePat p) (hinf : p <:+: t)
    (h1 : t.count '<' = 1) (h2 : t.count '>' = 1)
    (hh : t.head? = some '<') (hl : t.getLast? = some '>') : p = t := by
  obtain ⟨x, y, hxy⟩ := hinf
  obtain ⟨mid, hmid, hall, hform⟩ := hp
  have hpc1 : 1 ≤ p.count '<' := by
    rw [hform]
    have : '<' ∈ '<' :: (mid ++ ['>']) := by simp
    exact List.count_pos_iff.mpr this
  have hpc2 : 1 ≤ p.count '>' := by
    rw [hform]
    have : '>' ∈ '<' :: (mid ++ ['>']) := by simp
    exact List.count_pos_iff.mpr this
  have hcx : x.count '<' = 0 ∧ y.count '<' = 0 := by
    have := congrArg (List.count '<') hxy
    simp only [List.count_append] at this
    omega
  have hcy : x.count '>' = 0 ∧ y.count '>' = 0 := by
    have := congrArg (List.count '>') hxy
    simp only [List.count_append] at this
    omega
  have hx : x = [] := by
    cases x with
    | nil => rfl
    | cons a x' =>
      exfalso
      have hhead : a = '<' := by
        rw [← hxy] at hh
        simpa using hh
      subst hhead
      have : 0 < (('<' :: x').count '<') := List.count_pos_iff.mpr (by simp)
      omega
  have hy : y = [] := by
    rcases List.eq_nil_or_concat y with rfl | ⟨y', a, rfl⟩
    · rfl
    · exfalso
      rw [List.concat_eq_append] at hcy
      have hlast : a = '>' := by
        rw [← hxy, List.concat_eq_append] at hl
        rw [show x ++ p ++ (y' ++ [a]) = (x ++ p ++ y') ++ [a] from by simp,
          List.getLast?_concat] at hl
        exact Option.some.inj hl
      subst hlast
      have : 0 < ((y' ++ ['>']).count '>') := List.count_pos_iff.mpr (by simp)
      omega
  subst hx; subst hy
  simpa using hxy

/-! ## Replacement relation

`Rel s out` captures the action of every text-rewriting pass in the
extractor and the mutator: scanning left to right, each step either copies a
character or replaces a nonempty chunk by one of the replacement strings
that those passes insert (`<var>`, `<integer>`, `<code_str>`, `let <var>`).
-/

/-- Replacement strings inserted by the extractor and mutator passes. -/
def okReps : List (List Char) := [tokVar, tokInt, tokStr, String.toList "let <var>"]

inductive Rel : List Char → List Char → Prop
  | nil : Rel [] []
  | copy (c : Char) {s out : List Char} : Rel s out → Rel (c :: s) (c :: out)
  | repl {chunk rep s out : List Char} :
      chunk ≠ [] → rep ∈ okReps → Rel s out → Rel (chunk ++ s) (rep ++ out)

theorem okReps_closed : ∀ r ∈ okReps, closed r := by
  intro r hr
  fin_cases hr <;> exact closed_of_closedB (by decide)

theorem okReps_last : ∀ r ∈ okReps, r.getLast? = some '>' := by
  intro r hr
  fin_cases hr <;> decide

/-- Each replacement string decomposes as a (possibly empty) run of hole
characters followed by a stopping character that is neither a hole character
nor `'>'`. -/
theorem okReps_scan : ∀ r ∈ okReps, ∃ tw d tail, r = tw ++ d :: tail ∧
    (∀ c ∈ tw, isHoleChar c = true) ∧ isHoleChar d = false ∧ d ≠ '>' := by
  intro r hr
  fin_cases hr
  · exact ⟨[], '<', String.toList "var>", by decide, by decide, by decide, by decide⟩
  · exact ⟨[], '<', String.toList "integer>", by decide, by decide, by decide, by decide⟩
  · exact ⟨[], '<', String.toList "code_str>", by decide, by decide, by decide, by decide⟩
  · exact ⟨String.toList "let", ' ', String.toList "<var>", by decide, by decide, by decide,
      by decide⟩

/-- No string of the shape `mid ++ ['>']` with `mid` a run of hole characters
is a prefix of `(tw ++ d :: tail) ++ rest` when `tw` is a run of hole
characters and `d` is neither a hole character nor `'>'`. -/
theorem tailpat_not_prefix {tw : List Char} {d : Char} {tail rest : List Char}
    (htw : ∀ c ∈ tw, isHoleChar c = true) (hd1 : isHoleChar d = false) (hd2 : d ≠ '>') :
    ∀ mid : List Char, (∀ c ∈ mid, isHoleChar c = true) →
      ¬ (mid ++ ['>']) <+: (tw ++ d :: tail) ++ rest := by
  induction tw with
  | nil =>
    intro mid hall h
    cases mid with
    | nil =>
      rw [List.nil_append, List.nil_append, List.cons_append] at h
      exact hd2 ((List.cons_prefix_cons.mp h).1).symm
    | cons m ms =>
      rw [List.cons_append, List.nil_append, List.cons_append] at h
      have hm := (List.cons_prefix_cons.mp h).1
      have := hall m (by simp)
      rw [hm] at this
      rw [this] at hd1
      exact absurd hd1 (by simp)
  | cons a tw' ih =>
    intro mid hall h
    cases mid with
    | nil =>
      rw [List.nil_append, List.cons_append, List.cons_append] at h
      have hm := (List.cons_prefix_cons.mp h).1
      have := htw a (by simp)
      rw [← hm] at this
      exact absurd this (by decide)
    | cons m ms =>
      rw [List.cons_append, List.cons_append, List.cons_append] at h
      have htail := (List.cons_prefix_cons.mp h).2
      exact ih (fun c hc => htw c (by simp [hc])) ms (fun c hc => hall c (by simp [hc]))
        (by rw [List.append_assoc] at htail ⊢; exact htail)

/-- Patterns of the shape `mid ++ ['>']` at the head of the output of a
rewrite pull back to the head of the input: every replacement string starts
with a character run that cannot complete such a pattern. -/
theorem Rel.pullback {s out : List Char} (h : Rel s out) :
    ∀ mid : List Char, (∀ c ∈ mid, isHoleChar c = true) →
      (mid ++ ['>']) <+: out → (mid ++ ['>']) <+: s := by
  induction h with
  | nil =>
    intro mid _ hpre
    rw [List.prefix_nil] at hpre
    exact absurd hpre (by simp)
  | copy c hrel ih =>
    intro mid hall hpre
    cases mid with
    | nil =>
      rw [List.nil_append] at hpre ⊢
      have := (List.cons_prefix_cons.mp hpre).1
      rw [this]
      exact List.cons_prefix_cons.mpr ⟨rfl, List.nil_prefix⟩
    | cons m ms =>
      rw [List.cons_append] at hpre ⊢
      obtain ⟨hm, hrest⟩ := List.cons_prefix_cons.mp hpre
      exact List.cons_prefix_cons.mpr ⟨hm,
        ih ms (fun c hc => hall c (by simp [hc])) hrest⟩
  | repl hchunk hrep hrel ih =>
    intro mid hall hpre
    exfalso
    obtain ⟨tw, d, tail, hdec, htw, hd1, hd2⟩ := okReps_scan _ hrep
    rw [hdec] at hpre
    exact tailpat_not_prefix htw hd1 hd2 mid hall hpre

/-- Core preservation theorem: a left-to-right rewrite that copies characters
and inserts `okReps` strings in place of nonempty chunks preserves token
closure. -/
theorem Rel.preserves_closed {s out : List Char} (h : Rel s out) (hcl : closed s) :
    closed out := by
  induction h with
  | nil =>
    intro p hp hinf
    rw [List.infix_nil] at hinf
    obtain ⟨mid, _, _, hform⟩ := hp
    rw [hinf] at hform
    exact absurd hform (by simp)
  | copy c hrel ih =>
    next s out =>
    have hsub : closed s := by
      intro p hp hinf
      exact hcl p hp (List.infix_cons hinf)
    intro p hp hinf
    rcases List.infix_cons_iff.mp hinf with hpre | hinf'
    · obtain ⟨mid, hmid, hall, hform⟩ := hp
      subst hform
      obtain ⟨hc, hrest⟩ := List.cons_prefix_cons.mp hpre
      have hpb := hrel.pullback mid hall hrest
      apply hcl _ ⟨mid, hmid, hall, rfl⟩
      apply List.IsPrefix.isInfix
      rw [hc]
      exact List.cons_prefix_cons.mpr ⟨rfl, hpb⟩
    · exact ih hsub p hp hinf'
  | repl hchunk hrep hrel ih =>
    next chunk rep s out =>
    have hsub : closed s := by
      intro p hp hinf
      apply hcl p hp
      obtain ⟨x, y, hxy⟩ := hinf
      exact ⟨chunk ++ x, y, by rw [← hxy]; simp⟩
    intro p hp hinf
    rcases infix_split hinf with h1 | h2 | ⟨p1, p2, hsp, hp1, hp2, hsuf, _⟩
    · exact okReps_closed _ hrep p hp h1
    · exact ih hsub p hp h2
    · exfalso
      have hlast : p1.getLast? = some '>' := by
        obtain ⟨w, hw⟩ := hsuf
        have hrl := okReps_last _ hrep
        rw [← hw, List.getLast?_append] at hrl
        cases hq : p1.getLast? with
        | none =>
          rw [List.getLast?_eq_none_iff] at hq
          exact absurd hq hp1
        | some v =>
          rw [hq] at hrl
          simp only [Option.or_some] at hrl
          exact hrl
      exact holePat_no_inner_gt hp hsp hlast hp2

theorem closed_mono {s t : List Char} (h : closed s) (hinf : t <:+: s) : closed t :=
  fun p hp hp' => h p hp (hp'.trans hinf)

theorem closed_nil : closed [] := by
  intro p hp hinf
  rw [List.infix_nil] at hinf
  obtain ⟨mid, _, _, hform⟩ := hp
  rw [hinf] at hform
  exact absurd hform (by simp)

theorem takeWhile_drop (P : Char → Bool) (l : List Char) :
    l.takeWhile P ++ l.drop (l.takeWhile P).length = l := by
  obtain ⟨q, hq⟩ := List.takeWhile_prefix (l := l) (p := P)
  have h3 : l.drop (l.takeWhile P).length = q := by
    have h2 : l.drop (l.takeWhile P).length =
        ((l.takeWhile P) ++ q).drop (l.takeWhile P).length := by rw [hq]
    rw [h2, List.drop_left]
  rw [h3, hq]

theorem leadsWith_drop {tok s : List Char} (h : leadsWith tok s = true) :
    tok ++ s.drop tok.length = s := by
  obtain ⟨t, ht⟩ := (leadsWith_iff _ _).mp h
  have : s.drop tok.length = t := by
    rw [← ht]
    exact List.drop_left _ _
  rw [this, ht]

theorem mem_of_getLast?_eq {l : List Char} {v : Char} (h : l.getLast? = some v) : v ∈ l := by
  rcases List.eq_nil_or_concat l with rfl | ⟨l', a, rfl⟩
  · simp at h
  · rw [List.concat_eq_append] at h ⊢
    rw [List.getLast?_concat] at h
    injection h with h
    subst h
    simp

theorem suffix_getLast? {x y : List Char} (h : x <:+ y) (hx : x ≠ []) :
    y.getLast? = x.getLast? := by
  obtain ⟨w, rfl⟩ := h
  rw [List.getLast?_append]
  cases hq : x.getLast? with
  | none => exact absurd (List.getLast?_eq_none_iff.mp hq) hx
  | some v => simp

theorem prefix_head? {x y : List Char} (h : x <+: y) (hx : x ≠ []) :
    y.head? = x.head? := by
  obtain ⟨w, rfl⟩ := h
  cases x with
  | nil => exact absurd rfl hx
  | cons c r => simp

/-! ## Rust `str::replace` (replace every non-overlapping occurrence) -/

def replaceAllF (tok rep : List Char) : ℕ → List Char → List Char
  | 0, s => s
  | _ + 1, [] => []
  | fuel + 1, c :: r =>
      if leadsWith tok (c :: r) then rep ++ replaceAllF tok rep fuel ((c :: r).drop tok.length)
      else c :: replaceAllF tok rep fuel r

def replaceAll (tok rep s : List Char) : List Char := replaceAllF tok rep s.length s

theorem replaceAllF_rel {tok rep : List Char} (htok : tok ≠ []) (hrep : rep ∈ okReps) :
    ∀ fuel s, s.length ≤ fuel → Rel s (replaceAllF tok rep fuel s) := by
  intro fuel
  induction fuel with
  | zero =>
    intro s hs
    rw [List.length_eq_zero.mp (Nat.le_zero.mp hs)]
    exact Rel.nil
  | succ fuel ih =>
    intro s hs
    match s with
    | [] => exact Rel.nil
    | c :: r =>
      show Rel (c :: r) (if leadsWith tok (c :: r) then _ else _)
      split
      next hlw =>
        have hdec := leadsWith_drop hlw
        have hlen : ((c :: r).drop tok.length).length ≤ fuel := by
          have h1 : 1 ≤ tok.length := List.length_pos.mpr htok
          rw [List.length_drop]
          simp only [List.length_cons] at hs ⊢
          omega
        have := Rel.repl htok hrep (ih _ hlen)
        rw [hdec] at this
        exact this
      next =>
        exact Rel.copy c (ih r (by simp only [List.length_cons] at hs; omega))

theorem replaceAll_rel {tok rep : List Char} (htok : tok ≠ []) (hrep : rep ∈ okReps)
    (s : List Char) : Rel s (replaceAll tok rep s) :=
  replaceAllF_rel htok hrep s.length s (le_refl _)

/-! ## The Mutator (src/crates/kre8ntemjs_core/src/lib.rs, `impl Mutator`) -/

namespace Mutator

/-- `Mutator::delete_placeholder`: for each token in vocabulary order, if it
occurs, remove its first occurrence and stop. -/
def delete_placeholder (s : List Char) : List Char :=
  match splitFirst tokVar s with
  | some (a, b) => a ++ b
  | none =>
    match splitFirst tokInt s with
    | some (a, b) => a ++ b
    | none =>
      match splitFirst tokStr s with
      | some (a, b) => a ++ b
      | none => s

/-- `Mutator::substitute_placeholder`: pick one vocabulary token and replace
every occurrence of it by another one, both chosen uniformly (`choose` draws
modelled as stream indices `g 0`, `g 1`). -/
def substitute_placeholder (s : List Char) (g : ℕ → ℕ) : List Char :=
  replaceAll (vocab.getD (g 0 % 3) tokVar) (vocab.getD (g 1 % 3) tokVar) s

/-- `Mutator::fuse`: concatenation with a newline. -/
def fuse (a b : List Char) : List Char := a ++ '\n' :: b

end Mutator

/-! ## AST adapter (src/crates/kre8ntemjs_core/src/ast.rs) -/

/-- `insert_at_node`: splice `ins` immediately before byte offset `b`,
adding a newline before when the head does not already end with one, and a
newline after when `ins` does not end with one.  (Rust `ends_with('\n')` is
false on the empty string, so an empty head also receives a separator.) -/
def insert_at_node (src : List Char) (b : ℕ) (ins : List Char) : List Char :=
  (src.take b) ++
    (if (src.take b).getLast? = some '\n' then [] else ['\n']) ++
    ins ++
    (if ins.getLast? = some '\n' then [] else ['\n']) ++
    (src.drop b)

/-- The fixed insertion list of `Mutator::insert_placeholder`. -/
def stmt_tmpls : List (List Char) :=
  [String.toList "let <var> = <integer>;",
   String.toList "const <var> = <integer>;",
   String.toList "function <var>(){ return <integer>; } <var>();",
   String.toList "try { <var> = <integer>; } catch (e) {}",
   String.toList "for (let <var> = 0; <var> < <integer>; <var>++) { }",
   String.toList "({ toString(){ return <code_str>; } });"]

/-! ## Line-based fallback of `insert_placeholder` -/

/-- Rust `str::split('\n')` (always at least one part). -/
def splitOnNl : List Char → List (List Char)
  | [] => [[]]
  | c :: r =>
      if c = '\n' then [] :: splitOnNl r
      else match splitOnNl r with
           | [] => [[c]]
           | p :: ps => (c :: p) :: ps

/-- Join parts with newlines (Rust `Vec::join("\n")`). -/
def joinNl : List (List Char) → List Char
  | [] => []
  | p :: ps =>
      match ps with
      | [] => p
      | _ :: _ => p ++ '\n' :: joinNl ps

theorem splitOnNl_ne_nil (s : List Char) : splitOnNl s ≠ [] := by
  cases s with
  | nil => simp [splitOnNl]
  | cons c r =>
    unfold splitOnNl
    split
    · simp
    · cases h : splitOnNl r <;> simp

theorem joinNl_splitOnNl (s : List Char) : joinNl (splitOnNl s) = s := by
  induction s with
  | nil => rfl
  | cons c r ih =>
    unfold splitOnNl
    split
    next hc =>
      subst hc
      cases h : splitOnNl r with
      | nil => exact absurd h (splitOnNl_ne_nil r)
      | cons p ps =>
        show joinNl ([] :: p :: ps) = '\n' :: r
        show [] ++ '\n' :: joinNl (p :: ps) = '\n' :: r
        rw [← h, ih]
        rfl
    next =>
      cases h : splitOnNl r with
      | nil => exact absurd h (splitOnNl_ne_nil r)
      | cons p ps =>
        cases ps with
        | nil =>
          show c :: p = c :: r
          have : joinNl (splitOnNl r) = r := ih
          rw [h] at this
          show c :: p = c :: r
          rw [show joinNl [p] = p from rfl] at this
          rw [this]
        | cons q qs =>
          show (c :: p) ++ '\n' :: joinNl (q :: qs) = c :: r
          have : joinNl (splitOnNl r) = r := ih
          rw [h] at this
          rw [show joinNl (p :: q :: qs) = p ++ '\n' :: joinNl (q :: qs) from rfl] at this
          rw [List.cons_append, this]

theorem mem_joinNl_sub {parts : List (List Char)} {part : List Char}
    (h : part ∈ parts) : part <:+: joinNl parts := by
  induction parts with
  | nil => exact absurd h (by simp)
  | cons p ps ih =>
    rcases List.mem_cons.mp h with rfl | hmem
    · cases ps with
      | nil => exact List.infix_rfl
      | cons q qs =>
        show part <:+: part ++ '\n' :: joinNl (q :: qs)
        exact ⟨[], '\n' :: joinNl (q :: qs), rfl⟩
    · cases ps with
      | nil => exact absurd hmem (by simp)
      | cons q qs =>
        obtain ⟨x, y, hxy⟩ := ih hmem
        show part <:+: p ++ '\n' :: joinNl (q :: qs)
        exact ⟨p ++ '\n' :: x, y, by rw [← hxy]; simp⟩

/-- `Mutator::insert_placeholder`, parse-failure fallback: split on `'\n'`,
insert `"let <var> = <integer>;"` at line index `k`, re-join. -/
def insert_placeholder_fallback (s : List Char) (k : ℕ) : List Char :=
  joinNl ((splitOnNl s).take k ++ [String.toList "let <var> = <integer>;"] ++ (splitOnNl s).drop k)

/-! ## Extractor regex fallback (src/crates/kre8ntemjs_core/src/lib.rs 140-143) -/

def isDigitC (c : Char) : Bool := '0' ≤ c && c ≤ '9'

def isWordC (c : Char) : Bool :=
  ('a' ≤ c && c ≤ 'z') || ('A' ≤ c && c ≤ 'Z') || isDigitC c || c = '_'

def isSpaceC (c : Char) : Bool :=
  c = ' ' || c = '\t' || c = '\n' || c = '\r' || c = '\x0b' || c = '\x0c'

def isAlphaUnd (c : Char) : Bool :=
  ('a' ≤ c && c ≤ 'z') || ('A' ≤ c && c ≤ 'Z') || c = '_'

/-- Scanner for `re_int.replace_all(src, "<integer>")` with
`re_int = \b\d+\b`.  The boolean state records whether the previous
character was a word character (so `\b` holds iff it is `false`). -/
def intRepF : ℕ → Bool → List Char → List Char
  | 0, _, s => s
  | _ + 1, _, [] => []
  | fuel + 1, prevW, c :: r =>
      if !prevW && isDigitC c then
        if (match ((c :: r).drop ((c :: r).takeWhile isDigitC).length).head? with
            | none => true
            | some d => !isWordC d) then
          tokInt ++ intRepF fuel true ((c :: r).drop ((c :: r).takeWhile isDigitC).length)
        else c :: intRepF fuel true r
      else c :: intRepF fuel (isWordC c) r

def intRep (s : List Char) : List Char := intRepF s.length false s

/-- Scanner for `re_var_decl.replace_all(s, "let <var>")` with
`re_var_decl = \blet\s+([a-zA-Z_]\w*)`. -/
def letRepF : ℕ → Bool → List Char → List Char
  | 0, _, s => s
  | _ + 1, _, [] => []
  | fuel + 1, prevW, c :: r =>
      if !prevW && leadsWith (String.toList "let") (c :: r) &&
          !(((c :: r).drop 3).takeWhile isSpaceC).isEmpty &&
          (match (((c :: r).drop 3).drop (((c :: r).drop 3).takeWhile isSpaceC).length).head? with
           | some h => isAlphaUnd h
           | none => false) then
        String.toList "let <var>" ++
          letRepF fuel true
            ((((c :: r).drop 3).drop (((c :: r).drop 3).takeWhile isSpaceC).length).drop
              ((((c :: r).drop 3).drop
                (((c :: r).drop 3).takeWhile isSpaceC).length).takeWhile isWordC).length)
      else c :: letRepF fuel (isWordC c) r

def letRep (s : List Char) : List Char := letRepF s.length false s

/-- `Extractor::extract`, regex fallback path: integers first, then `let`
declarations. -/
def extract_fallback (s : List Char) : List Char := letRep (intRep s)

/-! ## Edits of the AST extraction path -/

/-- One edit `(start_byte, end_byte, replacement)` applied to a string. -/
def replaceRange (s : List Char) (a b : ℕ) (rep : List Char) : List Char :=
  s.take a ++ rep ++ s.drop b

/-- Apply a sequence of edits (the extractor applies them right-to-left so
earlier offsets stay valid; the fold is over the already-ordered list). -/
def applyEdits (s : List Char) (edits : List (ℕ × ℕ × List Char)) : List Char :=
  edits.foldl (fun acc e => replaceRange acc e.1 e.2.1 e.2.2) s

/-! ## Closure-preservation lemmas -/

theorem head?_eq_some_mem {l : List Char} {v : Char} (h : l.head? = some v) : v ∈ l := by
  cases l with
  | nil => simp at h
  | cons c r =>
    simp only [List.head?_cons, Option.some.injEq] at h
    simp [← h]

theorem fuse_closed {a b : List Char} (ha : closed a) (hb : closed b) :
    closed (Mutator.fuse a b) := by
  intro p hp hinf
  rcases infix_split (show p <:+: a ++ ('\n' :: b) from hinf) with
    h1 | h2 | ⟨p1, p2, hsp, _, hp2, _, hpre⟩
  · exact ha p hp h1
  · rcases List.infix_cons_iff.mp h2 with hpre | h3
    · exfalso
      obtain ⟨mid, _, _, hform⟩ := hp
      rw [hform] at hpre
      exact absurd (List.cons_prefix_cons.mp hpre).1 (by decide)
    · exact hb p hp h3
  · exfalso
    have hh : p2.head? = some '\n' := by
      rw [← prefix_head? hpre hp2]
      simp
    apply holePat_no_newline hp
    rw [hsp]
    exact List.mem_append.mpr (Or.inr (head?_eq_some_mem hh))

/-- Concatenation across a junction that is either an inserted newline or an
existing trailing newline preserves closure. -/
theorem closed_nl_junction {x y sep : List Char} (hx : closed x) (hy : closed y)
    (hsep : sep = ['\n'] ∨ (sep = [] ∧ x.getLast? = some '\n')) :
    closed (x ++ sep ++ y) := by
  rcases hsep with rfl | ⟨rfl, hlast⟩
  · have heq : x ++ ['\n'] ++ y = Mutator.fuse x y := by
      simp [Mutator.fuse]
    rw [heq]
    exact fuse_closed hx hy
  · rw [List.append_nil]
    intro p hp hinf
    rcases infix_split hinf with h1 | h2 | ⟨p1, p2, hsp, hp1, _, hsuf, _⟩
    · exact hx p hp h1
    · exact hy p hp h2
    · exfalso
      have h1l : p1.getLast? = some '\n' := by
        rw [← suffix_getLast? hsuf hp1, hlast]
      apply holePat_no_newline hp
      rw [hsp]
      exact List.mem_append.mpr (Or.inl (mem_of_getLast?_eq h1l))

theorem insert_at_node_closed {src ins : List Char} {b : ℕ}
    (hsrc : closed src) (hins : closed ins) : closed (insert_at_node src b ins) := by
  have hhead : closed (src.take b) := closed_mono hsrc (List.take_prefix _ _).isInfix
  have htail : closed (src.drop b) := closed_mono hsrc (List.drop_suffix _ _).isInfix
  have hinner : closed (ins ++ (if ins.getLast? = some '\n' then [] else ['\n']) ++ src.drop b) := by
    apply closed_nl_junction hins htail
    split
    next h => exact Or.inr ⟨rfl, h⟩
    next => exact Or.inl rfl
  have houter : closed ((src.take b) ++
      (if (src.take b).getLast? = some '\n' then [] else ['\n']) ++
      (ins ++ (if ins.getLast? = some '\n' then [] else ['\n']) ++ src.drop b)) := by
    apply closed_nl_junction hhead hinner
    split
    next h => exact Or.inr ⟨rfl, h⟩
    next => exact Or.inl rfl
  have heq : insert_at_node src b ins =
      (src.take b) ++ (if (src.take b).getLast? = some '\n' then [] else ['\n']) ++
      (ins ++ (if ins.getLast? = some '\n' then [] else ['\n']) ++ src.drop b) := by
    simp [insert_at_node]
  rw [heq]
  exact houter

theorem joinNl_closed {parts : List (List Char)}
    (h : ∀ part ∈ parts, closed part) : closed (joinNl parts) := by
  induction parts with
  | nil => exact closed_nil
  | cons p ps ih =>
    cases ps with
    | nil => exact h p (by simp)
    | cons q qs =>
      show closed (p ++ '\n' :: joinNl (q :: qs))
      exact fuse_closed (h p (by simp)) (ih (fun part hp => h part (by simp [hp])))

theorem insert_placeholder_fallback_closed {s : List Char} {k : ℕ} (hs : closed s) :
    closed (insert_placeholder_fallback s k) := by
  apply joinNl_closed
  intro part hpart
  rcases List.mem_append.mp hpart with hp1 | hp2
  · rcases List.mem_append.mp hp1 with hp3 | hp4
    · exact closed_mono hs
        ((mem_joinNl_sub (List.mem_of_mem_take hp3)).trans
          (by rw [joinNl_splitOnNl]))
    · rw [List.mem_singleton.mp hp4]
      exact closed_of_closedB (by decide)
  · exact closed_mono hs
      ((mem_joinNl_sub (List.mem_of_mem_drop hp2)).trans
        (by rw [joinNl_splitOnNl]))

theorem vocab_getD_facts (k : ℕ) :
    vocab.getD (k % 3) tokVar ∈ okReps ∧ vocab.getD (k % 3) tokVar ≠ [] ∧
      vocab.getD (k % 3) tokVar ∈ vocab := by
  have h3 : k % 3 < 3 := Nat.mod_lt _ (by norm_num)
  have : k % 3 = 0 ∨ k % 3 = 1 ∨ k % 3 = 2 := by omega
  rcases this with h | h | h <;> rw [h] <;> exact ⟨by decide, by decide, by decide⟩

theorem substitute_placeholder_closed {s : List Char} (g : ℕ → ℕ) (hs : closed s) :
    closed (Mutator.substitute_placeholder s g) := by
  obtain ⟨hmem, hne, _⟩ := vocab_getD_facts (g 0)
  exact Rel.preserves_closed
    (replaceAll_rel hne ((vocab_getD_facts (g 1)).1) s) hs

theorem intRepF_rel : ∀ fuel (prevW : Bool) (s : List Char), s.length ≤ fuel →
    Rel s (intRepF fuel prevW s) := by
  intro fuel
  induction fuel with
  | zero =>
    intro prevW s hs
    rw [List.length_eq_zero.mp (Nat.le_zero.mp hs)]
    exact Rel.nil
  | succ fuel ih =>
    intro prevW s hs
    match s with
    | [] => exact Rel.nil
    | c :: r =>
      show Rel (c :: r) (if !prevW && isDigitC c then _ else _)
      split
      next hcnd =>
        have hdig : isDigitC c = true := (Bool.and_eq_true _ _ |>.mp hcnd).2
        split
        next =>
          have hrun : ((c :: r).takeWhile isDigitC) ≠ [] := by
            rw [List.takeWhile_cons, hdig]
            simp
          have hlen : ((c :: r).drop ((c :: r).takeWhile isDigitC).length).length ≤ fuel := by
            have h1 : 1 ≤ ((c :: r).takeWhile isDigitC).length := List.length_pos.mpr hrun
            rw [List.length_drop]
            simp only [List.length_cons] at hs ⊢
            omega
          have := Rel.repl hrun (show tokInt ∈ okReps from by decide) (ih true _ hlen)
          rw [takeWhile_drop isDigitC (c :: r)] at this
          exact this
        next =>
          exact Rel.copy c (ih true r (by simp only [List.length_cons] at hs; omega))
      next =>
        exact Rel.copy c (ih (isWordC c) r (by simp only [List.length_cons] at hs; omega))

theorem letRepF_rel : ∀ fuel (prevW : Bool) (s : List Char), s.length ≤ fuel →
    Rel s (letRepF fuel prevW s) := by
  intro fuel
  induction fuel with
  | zero =>
    intro prevW s hs
    rw [List.length_eq_zero.mp (Nat.le_zero.mp hs)]
    exact Rel.nil
  | succ fuel ih =>
    intro prevW s hs
    match s with
    | [] => exact Rel.nil
    | c :: r =>
      show Rel (c :: r) (if _ && leadsWith (String.toList "let") (c :: r) && _ && _ then _ else _)
      split
      next hcnd =>
        have hlw : leadsWith (String.toList "let") (c :: r) = true := by
          have h1 := (Bool.and_eq_true _ _ |>.mp hcnd).1
          have h2 := (Bool.and_eq_true _ _ |>.mp h1).1
          exact (Bool.and_eq_true _ _ |>.mp h2).2
        -- decompose c :: r = "let" ++ sp ++ idr ++ rest
        have hdec1 : String.toList "let" ++ (c :: r).drop 3 = c :: r := leadsWith_drop hlw
        have hdec2 : (((c :: r).drop 3).takeWhile isSpaceC) ++
            ((c :: r).drop 3).drop ((((c :: r).drop 3).takeWhile isSpaceC)).length =
            (c :: r).drop 3 := takeWhile_drop _ _
        set d4 := ((c :: r).drop 3).drop ((((c :: r).drop 3).takeWhile isSpaceC)).length with hd4
        have hdec3 : (d4.takeWhile isWordC) ++ d4.drop (d4.takeWhile isWordC).length = d4 :=
          takeWhile_drop _ _
        have hchunk : (String.toList "let" ++ (((c :: r).drop 3).takeWhile isSpaceC) ++
            d4.takeWhile isWordC) ++ d4.drop (d4.takeWhile isWordC).length = c :: r := by
          rw [show (String.toList "let" ++ (((c :: r).drop 3).takeWhile isSpaceC) ++
              d4.takeWhile isWordC) ++ d4.drop (d4.takeWhile isWordC).length =
              String.toList "let" ++ ((((c :: r).drop 3).takeWhile isSpaceC) ++
              ((d4.takeWhile isWordC) ++ d4.drop (d4.takeWhile isWordC).length)) from by simp]
          rw [hdec3, hdec2, hdec1]
        have hlen : (d4.drop (d4.takeWhile isWordC).length).length ≤ fuel := by
          have h5 : (d4.drop (d4.takeWhile isWordC).length).length ≤ d4.length :=
            by rw [List.length_drop]; omega
          have h6 : d4.length ≤ ((c :: r).drop 3).length := by
            rw [hd4, List.length_drop]
            omega
          have h7 : ((c :: r).drop 3).length = r.length - 2 := by
            rw [List.length_drop]
            simp only [List.length_cons]
            omega
          simp only [List.length_cons] at hs
          omega
        have hne : (String.toList "let" ++ (((c :: r).drop 3).takeWhile isSpaceC) ++
            d4.takeWhile isWordC) ≠ [] := by simp
        have := Rel.repl hne (show String.toList "let <var>" ∈ okReps from by decide)
          (ih true _ hlen)
        rw [hchunk] at this
        exact this
      next =>
        exact Rel.copy c (ih (isWordC c) r (by simp only [List.length_cons] at hs; omega))

theorem intRep_closed {s : List Char} (hs : closed s) : closed (intRep s) :=
  Rel.preserves_closed (intRepF_rel s.length false s (le_refl _)) hs

theorem letRep_closed {s : List Char} (hs : closed s) : closed (letRep s) :=
  Rel.preserves_closed (letRepF_rel s.length false s (le_refl _)) hs

theorem extract_fallback_closed {s : List Char} (hs : closed s) :
    closed (extract_fallback s) := letRep_closed (intRep_closed hs)

theorem replaceRange_closed {s rep : List Char} {a b : ℕ}
    (hs : closed s) (hrep : rep ∈ vocab) : closed (replaceRange s a b rep) := by
  have hrepOk : rep ∈ okReps := by
    fin_cases hrep <;> decide
  have hhead : rep.head? = some '<' := by
    fin_cases hrep <;> decide
  have hlast : rep.getLast? = some '>' := okReps_last _ hrepOk
  have hclrep : closed rep := okReps_closed _ hrepOk
  intro p hp hinf
  rw [show replaceRange s a b rep = s.take a ++ (rep ++ s.drop b) from by
    simp [replaceRange]] at hinf
  rcases infix_split hinf with h1 | h2 | ⟨p1, p2, hsp, hp1, hp2, _, hpre⟩
  · exact hs p hp (h1.trans (List.take_prefix _ _).isInfix)
  · rcases infix_split h2 with h3 | h4 | ⟨q1, q2, hsq, hq1, hq2, hsufq, _⟩
    · exact hclrep p hp h3
    · exact hs p hp (h4.trans (List.drop_suffix _ _).isInfix)
    · exfalso
      have hq1l : q1.getLast? = some '>' := by
        rw [← suffix_getLast? hsufq hq1, hlast]
      exact holePat_no_inner_gt hp hsq hq1l hq2
  · exfalso
    have hh : p2.head? = some '<' := by
      rw [← prefix_head? hpre hp2]
      cases hrepc : rep with
      | nil => rw [hrepc] at hhead; simp at hhead
      | cons x xs =>
        rw [hrepc] at hhead
        simp only [List.head?_cons, Option.some.injEq] at hhead
        simp [hhead]
    exact holePat_no_inner_lt hp hsp hh hp1

theorem applyEdits_closed {s : List Char} {edits : List (ℕ × ℕ × List Char)}
    (hs : closed s) (hed : ∀ e ∈ edits, e.2.2 ∈ vocab) : closed (applyEdits s edits) := by
  induction edits generalizing s with
  | nil => exact hs
  | cons e es ih =>
    show closed (applyEdits (replaceRange s e.1 e.2.1 e.2.2) es)
    exact ih (replaceRange_closed hs (hed e (by simp))) (fun e' he' => hed e' (by simp [he']))

theorem stmt_tmpls_closed : ∀ ins ∈ stmt_tmpls, closed ins := by
  intro ins hins
  fin_cases hins <;> exact closed_of_closedB (by decide)

/-- C1, amended.  `delete_placeholder` does not preserve token closure (see
the counterexample); the remaining template producers do, on token-closed
inputs: the extractor's regex fallback, the extractor's AST edits (which
replace ranges by vocabulary tokens), AST-boundary insertion of any of the
six insertion templates, the line-based insertion fallback,
`substitute_placeholder`, and `fuse`. -/
theorem C1_token_closure_amended (s a b ins : List Char) (k bpos : ℕ) (g : ℕ → ℕ)
    (edits : List (ℕ × ℕ × List Char))
    (hs : closed s) (ha : closed a) (hb : closed b)
    (hins : ins ∈ stmt_tmpls)
    (hedits : ∀ e ∈ edits, e.2.2 ∈ vocab) :
    closed (extract_fallback s) ∧
    closed (applyEdits s edits) ∧
    closed (insert_at_node s bpos ins) ∧
    closed (insert_placeholder_fallback s k) ∧
    closed (Mutator.substitute_placeholder s g) ∧
    closed (Mutator.fuse a b) :=
  ⟨extract_fallback_closed hs, applyEdits_closed hs hedits,
   insert_at_node_closed hs (stmt_tmpls_closed ins hins),
   insert_placeholder_fallback_closed hs,
   substitute_placeholder_closed g hs, fuse_closed ha hb⟩

/-! ## The Concretizer (src/crates/kre8ntemjs_core/src/lib.rs, `impl Concretizer`) -/

/-- Number of `'<'` characters; decreases at every hole replacement, which
is the termination measure of the three `while let Some(pos) = out.find(..)`
loops (no replacement string contains `'<'`). -/
def countLt (s : List Char) : ℕ := s.count '<'

/-- Decimal digits of a natural number (fuel-structural so that it reduces). -/
def natToCharsF : ℕ → ℕ → List Char
  | 0, n => [Char.ofNat (48 + n % 10)]
  | fuel + 1, n =>
      if n < 10 then [Char.ofNat (48 + n)]
      else natToCharsF fuel (n / 10) ++ [Char.ofNat (48 + n % 10)]

def natToChars (n : ℕ) : List Char := natToCharsF n n

/-- Rust `i64::to_string`. -/
def intToChars (z : ℤ) : List Char :=
  if z < 0 then '-' :: natToChars z.natAbs else natToChars z.toNat

theorem digitChar_isDigit {d : ℕ} (h : d < 10) : isDigitC (Char.ofNat (48 + d)) = true := by
  interval_cases d <;> decide

theorem natToCharsF_digits : ∀ fuel n c, c ∈ natToCharsF fuel n → isDigitC c = true := by
  intro fuel
  induction fuel with
  | zero =>
    intro n c hc
    simp only [natToCharsF, List.mem_singleton] at hc
    subst hc
    exact digitChar_isDigit (Nat.mod_lt _ (by norm_num))
  | succ fuel ih =>
    intro n c hc
    unfold natToCharsF at hc
    split at hc
    next h =>
      simp only [List.mem_singleton] at hc
      subst hc
      exact digitChar_isDigit h
    next =>
      rcases List.mem_append.mp hc with hc | hc
      · exact ih _ c hc
      · simp only [List.mem_singleton] at hc
        subst hc
        exact digitChar_isDigit (Nat.mod_lt _ (by norm_num))

theorem intToChars_no_lt (z : ℤ) : '<' ∉ intToChars z := by
  intro hc
  unfold intToChars at hc
  split at hc
  · rcases List.mem_cons.mp hc with h | h
    · exact absurd h (by decide)
    · have := natToCharsF_digits _ _ _ h
      exact absurd this (by decide)
  · have := natToCharsF_digits _ _ _ hc
    exact absurd this (by decide)

/-- Maximal word-character runs of a string, in order. -/
def wordRunsF : ℕ → List Char → List (List Char)
  | 0, _ => []
  | _ + 1, [] => []
  | fuel + 1, c :: r =>
      if isWordC c then
        ((c :: r).takeWhile isWordC) ::
          wordRunsF fuel ((c :: r).drop ((c :: r).takeWhile isWordC).length)
      else wordRunsF fuel r

/-- Identifier pool built by `Concretizer::concretize`: every
`\b[A-Za-z_]\w*\b` match that is not a keyword, then the fixed fallback
pool. -/
def idPool (s : List Char) : List (List Char) :=
  ((wordRunsF s.length s).filter (fun run =>
      (match run.head? with
       | some c => isAlphaUnd c
       | none => false) &&
      !([String.toList "let", String.toList "const", String.toList "var",
         String.toList "function", String.toList "class", String.toList "try",
         String.toList "catch", String.toList "for",
         String.toList "return"].contains run))) ++
    [String.toList "a", String.toList "b", String.toList "c", String.toList "x",
     String.toList "y", String.toList "z", String.toList "tmp", String.toList "obj",
     String.toList "v"]

theorem wordRunsF_word : ∀ fuel s run, run ∈ wordRunsF fuel s →
    ∀ c ∈ run, isWordC c = true := by
  intro fuel
  induction fuel with
  | zero => intro s run h; simp [wordRunsF] at h
  | succ fuel ih =>
    intro s run h
    match s with
    | [] => simp [wordRunsF] at h
    | c :: r =>
      unfold wordRunsF at h
      split at h
      next =>
        rcases List.mem_cons.mp h with rfl | h
        · intro d hd
          exact List.mem_takeWhile_imp hd
        · exact ih _ _ h
      next => exact ih _ _ h

theorem idPool_no_angle {s : List Char} : ∀ run ∈ idPool s, '<' ∉ run ∧ '>' ∉ run := by
  intro run hrun
  rcases List.mem_append.mp hrun with h | h
  · have hword := wordRunsF_word _ _ _ (List.mem_filter.mp h).1
    constructor
    · intro hc
      exact absurd (hword _ hc) (by decide)
    · intro hc
      exact absurd (hword _ hc) (by decide)
  · fin_cases h <;> exact ⟨by decide, by decide⟩

theorem getD_no_angle {l : List (List Char)} (h : ∀ x ∈ l, '<' ∉ x ∧ '>' ∉ x) (i : ℕ) :
    '<' ∉ l.getD i [] ∧ '>' ∉ l.getD i [] := by
  rcases Nat.lt_or_ge i l.length with hi | hi
  · have : l.getD i [] ∈ l := by
      rw [List.getD_eq_getElem _ _ hi]
      exact List.getElem_mem hi
    exact h _ this
  · rw [List.getD_eq_default _ _ hi]
    exact ⟨by simp, by simp⟩

/-- The four `<code_str>` snippets.  They are Rust *raw* string literals
(`r#"\"let k = 1;\""#`), so each one begins and ends with a literal
backslash-quote pair. -/
def snippets : List (List Char) :=
  [String.toList "\\\"let k = 1;\\\"",
   String.toList "\\\"class C{}\\\"",
   String.toList "\\\"({a:1})\\\"",
   String.toList "\\\"function f(){}\\\""]

/-- One `while let Some(pos) = out.find(tok)` loop of
`Concretizer::concretize`: replace the first occurrence of `tok` by
`repFn k` (the `k`-th rng draw) until none is left. -/
def tokenLoopF (tok : List Char) (repFn : ℕ → List Char) : ℕ → List Char → ℕ → List Char × ℕ
  | 0, s, k => (s, k)
  | fuel + 1, s, k =>
      match splitFirst tok s with
      | none => (s, k)
      | some (a, b) => tokenLoopF tok repFn fuel (a ++ repFn k ++ b) (k + 1)

/-- `Concretizer::concretize`: replace every `<integer>`, then build the
identifier pool and replace every `<var>`, then replace every `<code_str>`. -/
def concretize (tpl : List Char) (g : ℕ → ℕ) : List Char :=
  let p1 := tokenLoopF tokInt (fun k => intToChars ((g k % 20001 : ℕ) - 10000)) (countLt tpl) tpl 0
  let pool := idPool p1.1
  let p2 := tokenLoopF tokVar (fun k => pool.getD (g k % pool.length) []) (countLt p1.1) p1.1 p1.2
  (tokenLoopF tokStr (fun k => snippets.getD (g k % 4) []) (countLt p2.1) p2.1 p2.2).1

theorem splitFirst_some_infix {tok s : List Char} (hne : tok ≠ [])
    (h : splitFirst tok s ≠ none) : tok <:+: s := by
  cases hs : splitFirst tok s with
  | none => exact absurd hs h
  | some ab =>
    obtain ⟨a, b⟩ := ab
    exact ⟨a, b, (splitFirst_eq hne hs).symm⟩

/-- After a token loop with enough fuel, the token is gone (each replacement
contains no `'<'`, so `countLt` strictly decreases). -/
theorem tokenLoopF_post {tok : List Char} {repFn : ℕ → List Char}
    (htne : tok ≠ []) (htlt : '<' ∈ tok) (hrep : ∀ k, '<' ∉ repFn k) :
    ∀ fuel s k, countLt s ≤ fuel → ¬ tok <:+: (tokenLoopF tok repFn fuel s k).1 := by
  intro fuel
  induction fuel with
  | zero =>
    intro s k hs hinf
    have : '<' ∈ s := hinf.sublist.subset htlt
    have : 0 < countLt s := List.count_pos_iff.mpr this
    omega
  | succ fuel ih =>
    intro s k hs
    show ¬ tok <:+: (match splitFirst tok s with
      | none => (s, k)
      | some (a, b) => tokenLoopF tok repFn fuel (a ++ repFn k ++ b) (k + 1)).1
    cases hsp : splitFirst tok s with
    | none => exact splitFirst_none htne hsp
    | some ab =>
      obtain ⟨a, b⟩ := ab
      have hdec := splitFirst_eq htne hsp
      apply ih _ (k + 1)
      have h1 : countLt s = countLt a + countLt tok + countLt b := by
        rw [hdec]
        simp only [countLt, List.count_append]
      have h2 : countLt (a ++ repFn k ++ b) = countLt a + countLt b := by
        have hz : List.count '<' (repFn k) = 0 :=
          List.count_eq_zero.mpr (hrep k)
        simp only [countLt, List.count_append, hz]
        omega
      have h3 : 1 ≤ countLt tok := List.count_pos_iff.mpr htlt
      omega

/-- Replacing an occurrence of `tok` by `rep` cannot create an occurrence of
a delimited token `t` when `rep` contains neither delimiter and has a
character foreign to `t`. -/
theorem no_token_creation {t a b rep : List Char}
    (hta : ¬ t <:+: a) (htb : ¬ t <:+: b)
    (hth : t.head? = some '<') (htl : t.getLast? = some '>')
    (h1 : '<' ∉ rep) (h2 : '>' ∉ rep) (h3 : ∃ ch, ch ∈ rep ∧ ch ∉ t) :
    ¬ t <:+: a ++ (rep ++ b) := by
  have htne : t ≠ [] := by
    intro h0; rw [h0] at hth; simp at hth
  intro hinf
  rcases infix_split hinf with hA | hRB | ⟨p1, p2, hsp, hp1, hp2, _, hpre⟩
  · exact hta hA
  · rcases infix_split hRB with hR | hB | ⟨q1, q2, hsq, hq1, _, hsufq, _⟩
    · exact h1 (hR.sublist.subset (head?_eq_some_mem hth))
    · exact htb hB
    · -- q1 nonempty prefix of t inside rep
      have : q1.head? = some '<' := by
        have hh : t.head? = q1.head? := by
          rw [hsq]
          cases q1 with
          | nil => exact absurd rfl hq1
          | cons x xs => simp
        rw [← hh, hth]
      have : '<' ∈ q1 := head?_eq_some_mem this
      exact h1 (hsufq.sublist.subset this)
  · -- t = p1 ++ p2, p2 a nonempty prefix of rep ++ b
    have hp2last : p2.getLast? = some '>' := by
      have : p2 <:+ t := ⟨p1, hsp.symm⟩
      rw [← suffix_getLast? this hp2, htl]
    obtain ⟨w, hw⟩ := hpre
    rcases List.append_eq_append_iff.mp hw.symm with ⟨u, hu1, _⟩ | ⟨u, hu1, _⟩
    · -- p2 = rep ++ u : rep sits inside t
      obtain ⟨ch, hch1, hch2⟩ := h3
      apply hch2
      rw [hsp]
      apply List.mem_append.mpr
      right
      rw [hu1]
      exact List.mem_append.mpr (Or.inl hch1)
    · -- rep = p2 ++ u : p2 sits inside rep, so '>' ∈ rep
      apply h2
      have : '>' ∈ p2 := mem_of_getLast?_eq hp2last
      rw [hu1]
      exact List.mem_append.mpr (Or.inl this)

/-- A token loop cannot create occurrences of a foreign delimited token. -/
theorem tokenLoopF_preserves {tok t : List Char} {repFn : ℕ → List Char}
    (htokne : tok ≠ [])
    (hth : t.head? = some '<') (htl : t.getLast? = some '>')
    (hrep : ∀ k, '<' ∉ repFn k ∧ '>' ∉ repFn k ∧ ∃ ch, ch ∈ repFn k ∧ ch ∉ t) :
    ∀ fuel s k, ¬ t <:+: s → ¬ t <:+: (tokenLoopF tok repFn fuel s k).1 := by
  intro fuel
  induction fuel with
  | zero => intro s k hs; exact hs
  | succ fuel ih =>
    intro s k hs
    show ¬ t <:+: (match splitFirst tok s with
      | none => (s, k)
      | some (a, b) => tokenLoopF tok repFn fuel (a ++ repFn k ++ b) (k + 1)).1
    cases hsp : splitFirst tok s with
    | none => exact hs
    | some ab =>
      obtain ⟨a, b⟩ := ab
      have hdec := splitFirst_eq htokne hsp
      apply ih _ (k + 1)
      have hta : ¬ t <:+: a := by
        intro h
        exact hs (h.trans ⟨[], tok ++ b, by rw [hdec]; simp⟩)
      have htb : ¬ t <:+: b := by
        intro h
        exact hs (h.trans ⟨a ++ tok, [], by rw [hdec]; simp⟩)
      obtain ⟨hr1, hr2, hr3⟩ := hrep k
      have := no_token_creation hta htb hth htl hr1 hr2 hr3
      intro hcon
      apply this
      rw [show a ++ (repFn k ++ b) = a ++ repFn k ++ b from by simp]
      exact hcon

theorem snippets_getD_facts (k : ℕ) :
    '<' ∉ snippets.getD (k % 4) [] ∧ '>' ∉ snippets.getD (k % 4) [] ∧
      ∃ ch, ch ∈ snippets.getD (k % 4) [] ∧ ch ∉ tokVar := by
  have h4 : k % 4 < 4 := Nat.mod_lt _ (by norm_num)
  have : k % 4 = 0 ∨ k % 4 = 1 ∨ k % 4 = 2 ∨ k % 4 = 3 := by omega
  rcases this with h | h | h | h <;> rw [h] <;>
    exact ⟨by decide, by decide, '\\', by decide, by decide⟩

/-- C2, counterexample.  On the template `"<<var>> integer"` the word
`integer` enters the identifier pool; with an rng that draws index 0 the
single `<var>` is replaced by `integer`, recreating the token
`<integer>` after the integer pass has already finished.  The concretized
output still contains the hole token `<integer>`. -/
theorem C2_concretize_totality_cex :
    concretize (String.toList "<<var>> integer") (fun _ => 0) =
      String.toList "<integer> integer" ∧
    tokInt <:+: concretize (String.toList "<<var>> integer") (fun _ => 0) := by
  constructor
  · decide
  · rw [show concretize (String.toList "<<var>> integer") (fun _ => 0) =
      String.toList "<integer> integer" from by decide]
    exact ⟨[], String.toList " integer", by decide⟩

/-- C2, amended.  For every template and rng, the concretized output
contains no `<var>` and no `<code_str>` occurrence; an `<integer>` may
survive (recreated by identifier substitution, as in the counterexample). -/
theorem C2_concretize_totality_amended (tpl : List Char) (g : ℕ → ℕ) :
    ¬ tokVar <:+: concretize tpl g ∧ ¬ tokStr <:+: concretize tpl g := by
  unfold concretize
  set p1 := tokenLoopF tokInt (fun k => intToChars ((g k % 20001 : ℕ) - 10000))
    (countLt tpl) tpl 0 with hp1
  set pool := idPool p1.1 with hpool
  set p2 := tokenLoopF tokVar (fun k => pool.getD (g k % pool.length) [])
    (countLt p1.1) p1.1 p1.2 with hp2
  have hvar_gone : ¬ tokVar <:+: p2.1 := by
    rw [hp2]
    apply tokenLoopF_post (by decide) (by decide)
      (fun k => (getD_no_angle (idPool_no_angle) _).1) _ _ _ (le_refl _)
  constructor
  · apply tokenLoopF_preserves (by decide) (by decide) (by decide)
      (fun k => snippets_getD_facts (g k)) _ _ _ hvar_gone
  · apply tokenLoopF_post (by decide) (by decide)
      (fun k => by
        have h4 : g k % 4 < 4 := Nat.mod_lt _ (by norm_num)
        have : g k % 4 = 0 ∨ g k % 4 = 1 ∨ g k % 4 = 2 ∨ g k % 4 = 3 := by omega
        rcases this with h | h | h | h <;> rw [h] <;> decide) _ _ _ (le_refl _)

/-- C8, code bug.  The four `<code_str>` snippets are written as Rust *raw*
strings `r#"\"let k = 1;\""#`, so the emitted source contains literal
backslashes around the quotes: concretizing the template `<code_str>` with
an rng that draws index 0 yields `\"let k = 1;\"` (backslash, quote, ...),
not the spec's `"let k = 1;"` with bare outer quotes and no other
characters. -/
theorem C8_code_str_raw_string_bug :
    concretize (String.toList "<code_str>") (fun _ => 0) =
      String.toList "\\\"let k = 1;\\\"" ∧
    '\\' ∈ concretize (String.toList "<code_str>") (fun _ => 0) ∧
    concretize (String.toList "<code_str>") (fun _ => 0) ≠
      String.toList "\"let k = 1;\"" := by
  refine ⟨by decide, ?_, by decide⟩
  rw [show concretize (String.toList "<code_str>") (fun _ => 0) =
    String.toList "\\\"let k = 1;\\\"" from by decide]
  decide

/-! ## The minimizer (src/crates/kre8ntemjs_core/src/minimizer.rs, `minimize_by`)

The engine is modelled as a pure map from a candidate program to the stderr
of running it (`out.stderr` is all the loop inspects), covering the
error-free executions quantified by the claim; `same_bug` is a boolean
predicate on stderr. -/

/-- Strip one trailing `'\r'` (Rust `lines()` does so for `\r\n` endings). -/
def stripCr (l : List Char) : List Char :=
  if l.getLast? = some '\r' then l.dropLast else l

/-- Rust `str::lines`: split on `'\n'`, strip a `'\r'` left by a `"\r\n"`
ending, and produce no final empty line for a trailing newline. -/
def rustLinesF : ℕ → List Char → List (List Char)
  | 0, _ => []
  | fuel + 1, s =>
      if s = [] then []
      else
        match splitFirst ['\n'] s with
        | none => [s]
        | some (a, b) => stripCr a :: rustLinesF fuel b

def rustLines (s : List Char) : List (List Char) := rustLinesF (s.length + 1) s

/-- The `while i < lines.len() && lines.len() > 1` loop of `minimize_by`.
The measure `lines.length - i` strictly decreases on both branches, so
`lines.length` initial fuel suffices. -/
def minimizeGo (engine : List Char → List Char) (same_bug : List Char → Bool) :
    ℕ → List (List Char) → ℕ → List (List Char)
  | 0, lines, _ => lines
  | fuel + 1, lines, i =>
      if i < lines.length ∧ 1 < lines.length then
        if same_bug (engine (joinNl (lines.eraseIdx i))) then
          minimizeGo engine same_bug fuel (lines.eraseIdx i) i
        else
          minimizeGo engine same_bug fuel lines (i + 1)
      else lines

/-- `minimize_by` (signature-oracle minimizer). -/
def minimize_by (prog : List Char) (engine : List Char → List Char)
    (same_bug : List Char → Bool) : List Char :=
  joinNl (minimizeGo engine same_bug (rustLines prog).length (rustLines prog) 0)

theorem minimizeGo_inv (engine : List Char → List Char) (same_bug : List Char → Bool)
    (L0 : List (List Char)) :
    ∀ fuel lines i,
      (same_bug (engine (joinNl lines)) = true ∨ lines = L0) →
      (same_bug (engine (joinNl (minimizeGo engine same_bug fuel lines i))) = true ∨
        minimizeGo engine same_bug fuel lines i = L0) := by
  intro fuel
  induction fuel with
  | zero => intro lines i h; exact h
  | succ fuel ih =>
    intro lines i h
    have hunf : minimizeGo engine same_bug (fuel + 1) lines i =
        if i < lines.length ∧ 1 < lines.length then
          if same_bug (engine (joinNl (lines.eraseIdx i))) then
            minimizeGo engine same_bug fuel (lines.eraseIdx i) i
          else minimizeGo engine same_bug fuel lines (i + 1)
        else lines := rfl
    rw [hunf]
    split
    next =>
      split
      next hor => exact ih _ i (Or.inl hor)
      next => exact ih _ (i + 1) h
    next => exact h

/-- C4, counterexample.  For the program `"x\n"` (with a trailing newline),
an oracle that never holds, and any engine, `minimize_by` returns `"x"`:
the loop never runs (one line), and the result is `lines().join("\n")`,
which differs from the input program — so neither disjunct of the claim
holds (the oracle is constantly false and the result is not the input). -/
theorem C4_minimizer_soundness_cex :
    minimize_by (String.toList "x\n") (fun _ => []) (fun _ => false) = String.toList "x" ∧
    ¬ ((fun _ => false : List Char → Bool)
        ((fun _ => [] : List Char → List Char)
          (minimize_by (String.toList "x\n") (fun _ => []) (fun _ => false))) = true ∨
      minimize_by (String.toList "x\n") (fun _ => []) (fun _ => false) =
        String.toList "x\n") := by
  refine ⟨by decide, ?_⟩
  intro h
  rcases h with h | h
  · simp at h
  · rw [show minimize_by (String.toList "x\n") (fun _ => []) (fun _ => false) =
      String.toList "x" from by decide] at h
    exact absurd h (by decide)

/-- C4, amended.  If `minimize_by` returns `m` (no I/O error, engine
modelled as a pure stderr map), then either the oracle holds of the stderr
of running `m`, or `m` equals the *newline-normalization* of the input
program, `lines().join("\n")` — which is the input itself whenever the
input has no trailing newline and no `"\r\n"` line endings. -/
theorem C4_minimizer_soundness_amended (prog : List Char)
    (engine : List Char → List Char) (same_bug : List Char → Bool) :
    same_bug (engine (minimize_by prog engine same_bug)) = true ∨
      minimize_by prog engine same_bug = joinNl (rustLines prog) := by
  have h := minimizeGo_inv engine same_bug (rustLines prog) (rustLines prog).length
    (rustLines prog) 0 (Or.inr rfl)
  rcases h with h | h
  · exact Or.inl h
  · right
    unfold minimize_by
    rw [h]

/-! ## Crash signatures (src/crates/kre8ntemjs_cli/src/main.rs, `crash_signature`)

`crash_signature` normalizes stderr with two `Regex::replace_all` passes —
`0x[0-9a-fA-F]+ → 0xHEX`, then `:\d+(:\d+)? → :LINE` — and hashes the result
with SHA-1, printed as lowercase hex.  Each regex pass is embedded as a
deterministic left-to-right scanner (a small automaton consuming one
character per step), which matches the leftmost-match, greedy semantics of
`replace_all` for these two regexes. -/

def isHexDigitC (c : Char) : Bool :=
  isDigitC c || ('a' ≤ c && c ≤ 'f') || ('A' ≤ c && c ≤ 'F')

/-- States of the `0x[0-9a-fA-F]+` scanner: `N` no progress, `Z` after a
pending `'0'`, `ZX` after a pending `"0x"`, `H` inside a replaced literal. -/
inductive HexSt | N | Z | ZX | H
deriving DecidableEq

/-- One step of the hex scanner: emitted characters and next state. -/
def hexStep : HexSt → Char → (List Char × HexSt)
  | .N, c => if c = '0' then ([], .Z) else ([c], .N)
  | .Z, c =>
      if c = 'x' then ([], .ZX)
      else if c = '0' then (['0'], .Z)
      else (['0', c], .N)
  | .ZX, c =>
      if isHexDigitC c then (String.toList "0xHEX", .H)
      else (['0', 'x', c], .N)
  | .H, c =>
      if isHexDigitC c then ([], .H)
      else if c = '0' then ([], .Z)
      else ([c], .N)

/-- Pending characters to emit at end of input. -/
def hexFlush : HexSt → List Char
  | .N => [] | .Z => ['0'] | .ZX => ['0', 'x'] | .H => []

def hexGo : HexSt → List Char → List Char
  | st, [] => hexFlush st
  | st, c :: r => (hexStep st c).1 ++ hexGo (hexStep st c).2 r

/-- `re_hex.replace_all(stderr, "0xHEX")`. -/
def hexNorm (s : List Char) : List Char := hexGo .N s

/-- States of the `:\d+(:\d+)?` scanner: `N` no progress, `C1` after a
pending `':'`, `D1` inside the first digit run, `C2` after the optional
second `':'`, `D2` inside the second digit run. -/
inductive LineSt | N | C1 | D1 | C2 | D2
deriving DecidableEq

def lineStep : LineSt → Char → (List Char × LineSt)
  | .N, c => if c = ':' then ([], .C1) else ([c], .N)
  | .C1, c =>
      if isDigitC c then ([], .D1)
      else if c = ':' then ([':'], .C1)
      else ([':', c], .N)
  | .D1, c =>
      if isDigitC c then ([], .D1)
      else if c = ':' then ([], .C2)
      else (String.toList ":LINE" ++ [c], .N)
  | .C2, c =>
      if isDigitC c then ([], .D2)
      else if c = ':' then (String.toList ":LINE:", .C1)
      else (String.toList ":LINE" ++ [':', c], .N)
  | .D2, c =>
      if isDigitC c then ([], .D2)
      else if c = ':' then (String.toList ":LINE", .C1)
      else (String.toList ":LINE" ++ [c], .N)

def lineFlush : LineSt → List Char
  | .N => []
  | .C1 => [':']
  | .D1 => String.toList ":LINE"
  | .C2 => String.toList ":LINE:"
  | .D2 => String.toList ":LINE"

def lineGo : LineSt → List Char → List Char
  | st, [] => lineFlush st
  | st, c :: r => (lineStep st c).1 ++ lineGo (lineStep st c).2 r

/-- `re_line.replace_all(after_hex, ":LINE")`. -/
def lineNorm (s : List Char) : List Char := lineGo .N s

/-- The two normalization passes of `crash_signature`, in order. -/
def normalize (s : List Char) : List Char := lineNorm (hexNorm s)

/-! SHA-1 (the `sha1` crate), over bytes as naturals, words mod `2^32`. -/

def utf8Bytes (c : Char) : List ℕ :=
  let n := c.toNat
  if n < 128 then [n]
  else if n < 2048 then [192 + n / 64, 128 + n % 64]
  else if n < 65536 then [224 + n / 4096, 128 + (n / 64) % 64, 128 + n % 64]
  else [240 + n / 262144, 128 + (n / 4096) % 64, 128 + (n / 64) % 64, 128 + n % 64]

def strBytes (s : List Char) : List ℕ := s.foldr (fun c acc => utf8Bytes c ++ acc) []

def w32 : ℕ := 4294967296

def rotl (k x : ℕ) : ℕ := (x * 2 ^ k) % w32 + x / 2 ^ (32 - k)

/-- Big-endian bytes of a 64-bit length. -/
def be64 (n : ℕ) : List ℕ := (List.range 8).map (fun i => n / 2 ^ (8 * (7 - i)) % 256)

def sha1Pad (m : List ℕ) : List ℕ :=
  m ++ [128] ++ List.replicate ((64 + 55 - m.length % 64) % 64) 0 ++ be64 (8 * m.length)

def chunks64F : ℕ → List ℕ → List (List ℕ)
  | 0, _ => []
  | _ + 1, [] => []
  | fuel + 1, l => l.take 64 :: chunks64F fuel (l.drop 64)

def blockWords (b : List ℕ) : List ℕ :=
  (List.range 16).map (fun i =>
    b.getD (4 * i) 0 * 16777216 + b.getD (4 * i + 1) 0 * 65536 +
      b.getD (4 * i + 2) 0 * 256 + b.getD (4 * i + 3) 0)

def sha1Schedule (w16 : List ℕ) : List ℕ :=
  (List.range 64).foldl (fun acc _ =>
    acc ++ [rotl 1 (Nat.xor
      (Nat.xor (acc.getD (acc.length - 3) 0) (acc.getD (acc.length - 8) 0))
      (Nat.xor (acc.getD (acc.length - 14) 0) (acc.getD (acc.length - 16) 0)))]) w16

def sha1F (t b c d : ℕ) : ℕ :=
  if t < 20 then Nat.lor (Nat.land b c) (Nat.land (4294967295 - b) d)
  else if t < 40 then Nat.xor (Nat.xor b c) d
  else if t < 60 then Nat.lor (Nat.lor (Nat.land b c) (Nat.land b d)) (Nat.land c d)
  else Nat.xor (Nat.xor b c) d

def sha1K (t : ℕ) : ℕ :=
  if t < 20 then 1518500249
  else if t < 40 then 1859775393
  else if t < 60 then 2400959708
  else 3395469782

def sha1Block (h : ℕ × ℕ × ℕ × ℕ × ℕ) (block : List ℕ) : ℕ × ℕ × ℕ × ℕ × ℕ :=
  let w := sha1Schedule (blockWords block)
  let s := (List.range 80).foldl (fun (st : ℕ × ℕ × ℕ × ℕ × ℕ) t =>
    let (a, b, c, d, e) := st
    ((rotl 5 a + sha1F t b c d + e + sha1K t + w.getD t 0) % w32, a, rotl 30 b, c, d)) h
  ((h.1 + s.1) % w32, (h.2.1 + s.2.1) % w32, (h.2.2.1 + s.2.2.1) % w32,
    (h.2.2.2.1 + s.2.2.2.1) % w32, (h.2.2.2.2 + s.2.2.2.2) % w32)

def sha1Digest (m : List ℕ) : List ℕ :=
  let p := sha1Pad m
  let h := (chunks64F p.length p).foldl sha1Block
    (1732584193, 4023233417, 2562383102, 271733878, 3285377520)
  [h.1, h.2.1, h.2.2.1, h.2.2.2.1, h.2.2.2.2].foldr
    (fun x acc => [x / 16777216 % 256, x / 65536 % 256, x / 256 % 256, x % 256] ++ acc) []

def hexDigitChar (d : ℕ) : Char := if d < 10 then Char.ofNat (48 + d) else Char.ofNat (87 + d)

/-- `format!("{:x}", h.finalize())`: lowercase hex of the 20 digest bytes. -/
def sha1Hex (m : List ℕ) : List Char :=
  (sha1Digest m).foldr (fun b acc => hexDigitChar (b / 16) :: hexDigitChar (b % 16) :: acc) []

/-- `crash_signature`: normalize hex literals and line references, then
SHA-1 as lowercase hex. -/
def crash_signature (stderr : List Char) : List Char := sha1Hex (strBytes (normalize stderr))

set_option maxRecDepth 10000 in
/-- C3, counterexample.  In `":12:34:56"` the substring `":12:34"` matches
`:<digits>:<digits>`; replacing it by `":7"` (another such sequence) gives
`":7:56"`.  The greedy pairing of `:\d+(:\d+)?` normalizes the former to
`":LINE:LINE"` but the latter to `":LINE"`, so the two signatures differ. -/
theorem C3_signature_normalization_cex :
    (String.toList ":12:34:56" =
      [] ++ String.toList ":12:34" ++ String.toList ":56" ∧
     String.toList ":7:56" = [] ++ String.toList ":7" ++ String.toList ":56") ∧
    normalize (String.toList ":12:34:56") = String.toList ":LINE:LINE" ∧
    normalize (String.toList ":7:56") = String.toList ":LINE" ∧
    crash_signature (String.toList ":12:34:56") ≠ crash_signature (String.toList ":7:56") := by
  exact ⟨⟨by decide, by decide⟩, by decide, by decide, by decide⟩

/-! ### Amended C3: invariance for maximal, non-mergeable matches

The emitted output and the state of each scanner split over `++`; a hex
literal whose left context leaves the hex scanner in its start state and
whose right context does not begin with a hex digit is normalized to
`0xHEX` independently of its digits, and a `:\d+(:\d+)?` token whose left
context leaves the line scanner in its start state and whose right context
begins with neither a digit nor `':'` is normalized to `:LINE`
independently of its digits. -/

def hexEmit : HexSt → List Char → List Char
  | _, [] => []
  | st, c :: r => (hexStep st c).1 ++ hexEmit (hexStep st c).2 r

def hexStA : HexSt → List Char → HexSt
  | st, [] => st
  | st, c :: r => hexStA (hexStep st c).2 r

theorem hexGo_append (a : List Char) (st : HexSt) (b : List Char) :
    hexGo st (a ++ b) = hexEmit st a ++ hexGo (hexStA st a) b := by
  induction a generalizing st with
  | nil => simp [hexEmit, hexStA]
  | cons c r ih => simp [hexGo, hexEmit, hexStA, ih]

/-- A full match of `0x[0-9a-fA-F]+`: `"0x"` then a nonempty hex-digit run. -/
def isHexLit : List Char → Bool
  | [] => false
  | [_] => false
  | [_, _] => false
  | c0 :: c1 :: d :: ds => c0 == '0' && c1 == 'x' && isHexDigitC d && ds.all isHexDigitC

/-- The right context of a maximal hex match does not begin with a hex digit. -/
def headNotHex : List Char → Bool
  | [] => true
  | c :: _ => !(isHexDigitC c)

theorem hexRun_H_of_all (ds : List Char) (h : ds.all isHexDigitC = true) :
    hexEmit HexSt.H ds = [] ∧ hexStA HexSt.H ds = HexSt.H := by
  induction ds with
  | nil => exact ⟨rfl, rfl⟩
  | cons c r ih =>
      simp only [List.all_cons, Bool.and_eq_true] at h
      have hstep : hexStep HexSt.H c = ([], HexSt.H) := by simp [hexStep, h.1]
      obtain ⟨e1, e2⟩ := ih h.2
      exact ⟨by simp [hexEmit, hstep, e1], by simp only [hexStA, hstep]; exact e2⟩

theorem hexLit_run (h : List Char) (hh : isHexLit h = true) :
    hexEmit HexSt.N h = String.toList "0xHEX" ∧ hexStA HexSt.N h = HexSt.H := by
  match h, hh with
  | [], hh => simp [isHexLit] at hh
  | [c0], hh => simp [isHexLit] at hh
  | [c0, c1], hh => simp [isHexLit] at hh
  | c0 :: c1 :: d :: ds, hh =>
      simp only [isHexLit, Bool.and_eq_true, beq_iff_eq] at hh
      obtain ⟨⟨⟨h0, h1⟩, hd⟩, hds⟩ := hh
      subst h0; subst h1
      have e1 : hexStep HexSt.N '0' = ([], HexSt.Z) := by decide
      have e2 : hexStep HexSt.Z 'x' = ([], HexSt.ZX) := by decide
      have e3 : hexStep HexSt.ZX d = (String.toList "0xHEX", HexSt.H) := by
        simp [hexStep, hd]
      obtain ⟨r1, r2⟩ := hexRun_H_of_all ds hds
      constructor
      · simp [hexEmit, e1, e2, e3, r1]
      · simp only [hexStA, e1, e2, e3]; exact r2

theorem hexGo_H_eq (v : List Char) (hv : headNotHex v = true) :
    hexGo HexSt.H v = hexGo HexSt.N v := by
  match v with
  | [] => rfl
  | c :: r =>
      simp only [headNotHex, Bool.not_eq_true'] at hv
      have h0 : ¬ c = '0' := by intro h; subst h; exact absurd hv (by decide)
      have e1 : hexStep HexSt.H c = ([c], HexSt.N) := by simp [hexStep, hv, h0]
      have e2 : hexStep HexSt.N c = ([c], HexSt.N) := by simp [hexStep, h0]
      simp [hexGo, e1, e2]

theorem hexNorm_hexLit (u h v : List Char) (hh : isHexLit h = true)
    (hu : hexStA HexSt.N u = HexSt.N) (hv : headNotHex v = true) :
    hexNorm (u ++ h ++ v) =
      hexEmit HexSt.N u ++ (String.toList "0xHEX" ++ hexGo HexSt.N v) := by
  obtain ⟨e, s⟩ := hexLit_run h hh
  rw [List.append_assoc]
  unfold hexNorm
  rw [hexGo_append u, hu, hexGo_append h, e, s, hexGo_H_eq v hv]

def lineEmit : LineSt → List Char → List Char
  | _, [] => []
  | st, c :: r => (lineStep st c).1 ++ lineEmit (lineStep st c).2 r

def lineStA : LineSt → List Char → LineSt
  | st, [] => st
  | st, c :: r => lineStA (lineStep st c).2 r

theorem lineGo_append (a : List Char) (st : LineSt) (b : List Char) :
    lineGo st (a ++ b) = lineEmit st a ++ lineGo (lineStA st a) b := by
  induction a generalizing st with
  | nil => simp [lineEmit, lineStA]
  | cons c r ih => simp [lineGo, lineEmit, lineStA, ih]

/-- The optional `(:\d+)?` group: a `':'` then a nonempty digit run. -/
def lineTokBody2 : List Char → Bool
  | [] => false
  | c :: r => isDigitC c && r.all isDigitC

/-- What may follow `:\d` in a full match of `:\d+(:\d+)?`: more digits,
then either nothing or the optional second group. -/
def lineTokTail : List Char → Bool
  | [] => true
  | c :: r => if isDigitC c then lineTokTail r else c == ':' && lineTokBody2 r

/-- A full match of `:\d+(:\d+)?`. -/
def isLineTok : List Char → Bool
  | [] => false
  | [_] => false
  | c0 :: c1 :: r => c0 == ':' && isDigitC c1 && lineTokTail r

/-- The right context of a maximal line match begins with neither a digit
nor a `':'`. -/
def headNotLineC : List Char → Bool
  | [] => true
  | c :: _ => !(isDigitC c) && !(c == ':')

theorem lineRun_D2_of_all (r : List Char) (h : r.all isDigitC = true) :
    lineEmit LineSt.D2 r = [] ∧ lineStA LineSt.D2 r = LineSt.D2 := by
  induction r with
  | nil => exact ⟨rfl, rfl⟩
  | cons c r ih =>
      simp only [List.all_cons, Bool.and_eq_true] at h
      have hstep : lineStep LineSt.D2 c = ([], LineSt.D2) := by simp [lineStep, h.1]
      obtain ⟨e1, e2⟩ := ih h.2
      exact ⟨by simp [lineEmit, hstep, e1], by simp only [lineStA, hstep]; exact e2⟩

theorem lineRun_D1_of_tail (r : List Char) (h : lineTokTail r = true) :
    lineEmit LineSt.D1 r = [] ∧
      (lineStA LineSt.D1 r = LineSt.D1 ∨ lineStA LineSt.D1 r = LineSt.D2) := by
  induction r with
  | nil => exact ⟨rfl, Or.inl rfl⟩
  | cons c r ih =>
      by_cases hd : isDigitC c = true
      · have ht : lineTokTail r = true := by simpa [lineTokTail, hd] using h
        have e : lineStep LineSt.D1 c = ([], LineSt.D1) := by simp [lineStep, hd]
        obtain ⟨e1, e2⟩ := ih ht
        exact ⟨by simp [lineEmit, e, e1], by simp only [lineStA, e]; exact e2⟩
      · have h' : c = ':' ∧ lineTokBody2 r = true := by
          have hb : (c == ':' && lineTokBody2 r) = true := by
            simpa [lineTokTail, hd] using h
          simpa [Bool.and_eq_true, beq_iff_eq] using hb
        obtain ⟨hc, hb⟩ := h'
        subst hc
        match r, hb with
        | [], hb => simp [lineTokBody2] at hb
        | d :: r', hb =>
            simp only [lineTokBody2, Bool.and_eq_true] at hb
            obtain ⟨hd2, hall⟩ := hb
            have e1 : lineStep LineSt.D1 ':' = ([], LineSt.C2) := by decide
            have e2 : lineStep LineSt.C2 d = ([], LineSt.D2) := by simp [lineStep, hd2]
            obtain ⟨f1, f2⟩ := lineRun_D2_of_all r' hall
            constructor
            · simp [lineEmit, e1, e2, f1]
            · simp only [lineStA, e1, e2]; exact Or.inr f2

theorem lineGo_D_eq (st : LineSt) (hst : st = LineSt.D1 ∨ st = LineSt.D2)
    (v : List Char) (hv : headNotLineC v = true) :
    lineGo st v = String.toList ":LINE" ++ lineGo LineSt.N v := by
  match v with
  | [] => rcases hst with h | h <;> subst h <;> simp [lineGo, lineFlush]
  | c :: r =>
      simp only [headNotLineC, Bool.and_eq_true, Bool.not_eq_true'] at hv
      obtain ⟨hd, hc⟩ := hv
      have hc' : ¬ c = ':' := by
        intro h; subst h; simp at hc
      have e1 : lineStep LineSt.D1 c = (String.toList ":LINE" ++ [c], LineSt.N) := by
        simp [lineStep, hd, hc']
      have e2 : lineStep LineSt.D2 c = (String.toList ":LINE" ++ [c], LineSt.N) := by
        simp [lineStep, hd, hc']
      have eN : lineStep LineSt.N c = ([c], LineSt.N) := by simp [lineStep, hc']
      rcases hst with h | h <;> subst h
      · simp [lineGo, e1, eN]
      · simp [lineGo, e2, eN]

theorem lineNorm_lineTok (u h v : List Char) (hh : isLineTok h = true)
    (hu : lineStA LineSt.N u = LineSt.N) (hv : headNotLineC v = true) :
    lineNorm (u ++ h ++ v) =
      lineEmit LineSt.N u ++ (String.toList ":LINE" ++ lineGo LineSt.N v) := by
  match h, hh with
  | [], hh => simp [isLineTok] at hh
  | [c0], hh => simp [isLineTok] at hh
  | c0 :: c1 :: r, hh =>
      simp only [isLineTok, Bool.and_eq_true, beq_iff_eq] at hh
      obtain ⟨⟨hc0, hc1⟩, ht⟩ := hh
      subst hc0
      have e0 : lineStep LineSt.N ':' = ([], LineSt.C1) := by decide
      have e1 : lineStep LineSt.C1 c1 = ([], LineSt.D1) := by simp [lineStep, hc1]
      obtain ⟨f1, f2⟩ := lineRun_D1_of_tail r ht
      have hEmit : lineEmit LineSt.N (':' :: c1 :: r) = [] := by
        simp [lineEmit, e0, e1, f1]
      have hStA : lineStA LineSt.N (':' :: c1 :: r) = lineStA LineSt.D1 r := by
        simp only [lineStA, e0, e1]
      rw [List.append_assoc]
      unfold lineNorm
      rw [lineGo_append u, hu, lineGo_append, hEmit, hStA, lineGo_D_eq _ f2 v hv]
      simp

/-- C3, amended.  Signature invariance holds for replacements of MAXIMAL
matches, the reading the spec intends: if `h1`, `h2` are full hex literals
`0x[0-9a-fA-F]+`, the left context `u` leaves the hex scanner in its start
state, and the right context `v` does not begin with a hex digit, then
`crash_signature (u ++ h1 ++ v) = crash_signature (u ++ h2 ++ v)`; likewise
if `h1`, `h2` are full `:\d+(:\d+)?` tokens, the hex pass leaves both
strings unchanged, `u` leaves the line scanner in its start state, and `v`
begins with neither a digit nor `':'`.  (The counterexample shows the
unrestricted claim fails when the replaced substring is not a maximal
match.) -/
theorem C3_signature_normalization_amended
    (u v h1 h2 : List Char)
    (hcase :
      (isHexLit h1 = true ∧ isHexLit h2 = true ∧
        hexStA HexSt.N u = HexSt.N ∧ headNotHex v = true) ∨
      (isLineTok h1 = true ∧ isLineTok h2 = true ∧
        hexNorm (u ++ h1 ++ v) = u ++ h1 ++ v ∧
        hexNorm (u ++ h2 ++ v) = u ++ h2 ++ v ∧
        lineStA LineSt.N u = LineSt.N ∧ headNotLineC v = true)) :
    crash_signature (u ++ h1 ++ v) = crash_signature (u ++ h2 ++ v) := by
  rcases hcase with ⟨hh1, hh2, hu, hv⟩ | ⟨hh1, hh2, hx1, hx2, hu, hv⟩
  · unfold crash_signature normalize
    rw [hexNorm_hexLit u h1 v hh1 hu hv, hexNorm_hexLit u h2 v hh2 hu hv]
  · unfold crash_signature normalize
    rw [hx1, hx2, lineNorm_lineTok u h1 v hh1 hu hv, lineNorm_lineTok u h2 v hh2 hu hv]

set_option maxRecDepth 10000 in
/-- C3, amended, witness: replacing the maximal hex literal `0xDEAD` by
`0xCAFE` between `"E "` and `"!"` leaves the signature unchanged. -/
theorem C3_signature_normalization_amended_witness :
    isHexLit (String.toList "0xDEAD") = true ∧ isHexLit (String.toList "0xCAFE") = true ∧
    hexStA HexSt.N (String.toList "E ") = HexSt.N ∧ headNotHex (String.toList "!") = true ∧
    crash_signature (String.toList "E " ++ String.toList "0xDEAD" ++ String.toList "!") =
      crash_signature (String.toList "E " ++ String.toList "0xCAFE" ++ String.toList "!") :=
  ⟨by decide, by decide, by decide, by decide,
   C3_signature_normalization_amended (String.toList "E ") (String.toList "!")
     (String.toList "0xDEAD") (String.toList "0xCAFE")
     (Or.inl ⟨by decide, by decide, by decide, by decide⟩)⟩

/-! ## Engine harness (src/crates/kre8ntemjs_core/src/lib.rs, `Engine::run_js`)

The child process is modelled as a function from the poll index to an
optional exit observation `(status, stdout, stderr)` (the status already
resolved as `status.code().unwrap_or(-1)`, streams as drained after exit).
`limit` is the number of polls after which `start.elapsed() >= self.timeout`
first holds.  Each loop iteration checks `try_wait` first, then the
elapsed-time condition. -/

structure RunOutcome where
  status : ℤ
  timed_out : Bool
  stdout : List Char
  stderr : List Char
deriving DecidableEq

def run_jsF (child : ℕ → Option (ℤ × List Char × List Char)) : ℕ → ℕ → RunOutcome
  | 0, k =>
      match child k with
      | some (st, out, err) => ⟨st, false, out, err⟩
      | none => ⟨-1, true, [], String.toList "timeout"⟩
  | fuel + 1, k =>
      match child k with
      | some (st, out, err) => ⟨st, false, out, err⟩
      | none => run_jsF child fuel (k + 1)

/-- `Engine::run_js` as a function of the child behaviour and the number of
polls within the timeout budget. -/
def run_js (child : ℕ → Option (ℤ × List Char × List Char)) (limit : ℕ) : RunOutcome :=
  run_jsF child limit 0

theorem run_jsF_timeout (child : ℕ → Option (ℤ × List Char × List Char)) :
    ∀ fuel k, (∀ j, k ≤ j → j ≤ k + fuel → child j = none) →
      run_jsF child fuel k = ⟨-1, true, [], String.toList "timeout"⟩ := by
  intro fuel
  induction fuel with
  | zero =>
    intro k h
    show (match child k with
      | some (st, out, err) => RunOutcome.mk st false out err
      | none => ⟨-1, true, [], String.toList "timeout"⟩) = _
    rw [h k (le_refl _) (by omega)]
  | succ fuel ih =>
    intro k h
    show (match child k with
      | some (st, out, err) => RunOutcome.mk st false out err
      | none => run_jsF child fuel (k + 1)) = _
    rw [h k (le_refl _) (by omega)]
    exact ih (k + 1) (fun j hj1 hj2 => h j (by omega) (by omega))

/-- C6.  If the child has not exited at any poll up to the timeout, the
outcome is exactly `{status: -1, timed_out: true, stdout: "", stderr:
"timeout"}`, whatever the child's stream contents would have been — the
streams are never read. -/
theorem C6_timeout_outcome (child : ℕ → Option (ℤ × List Char × List Char)) (limit : ℕ)
    (h : ∀ k, k ≤ limit → child k = none) :
    run_js child limit = ⟨-1, true, [], String.toList "timeout"⟩ :=
  run_jsF_timeout child limit 0 (fun j _ hj2 => h j (by omega))

/-- Witness for C6: a child that never exits within a 3-poll budget. -/
theorem C6_timeout_outcome_witness :
    run_js (fun _ => none) 3 = ⟨-1, true, [], String.toList "timeout"⟩ :=
  C6_timeout_outcome (fun _ => none) 3 (fun _ _ => rfl)

/-! ## Driver loop triage (src/crates/kre8ntemjs_cli/src/main.rs, lines 141-210)

One iteration's observation: the main run's outcome fields the triage
inspects, plus the optional coverage score of the scoring pass (`Some` when
a score regex is configured).  File writes are modelled as appended records;
`interesting` is a specification-only trace listing each signature at the
moment it passes the gates (timeout, or non-syntax non-boring crash, both
after the coverage gate), before deduplication — it corresponds to no Rust
variable. -/

structure IterInput where
  stderr : List Char
  status : ℤ
  timed_out : Bool
  covScore : Option ℕ

structure DriverCfg where
  keep_only_increasing : Bool
  scoreEnabled : Bool

structure FileRec where
  isJs : Bool
  isTimeoutKind : Bool
  iter : ℕ
  sig : List Char
deriving DecidableEq

structure DriverState where
  seen : List (List Char)
  syntax_errors : ℕ
  crashes : ℕ
  timeouts : ℕ
  best_score : ℕ
  files : List FileRec
  interesting : List (List Char)

def hasSub (pat s : List Char) : Bool := (splitFirst pat s).isSome

def is_syntax_error (e : List Char) : Bool :=
  hasSub (String.toList "SyntaxError") e || hasSub (String.toList "Parse error") e ||
    hasSub (String.toList "Unexpected token") e

def initState : DriverState := ⟨[], 0, 0, 0, 0, [], []⟩

/-- `if is_syntax_error { syntax_errors += 1; }`. -/
def bump_syn (st : DriverState) (stderr : List Char) : DriverState :=
  if is_syntax_error stderr then { st with syntax_errors := st.syntax_errors + 1 } else st

/-- `if let Some(s) = cov_score { if s > best_score { best_score = s; } }`. -/
def upd_best (st : DriverState) (cov : Option ℕ) : DriverState :=
  match cov with
  | some s => if st.best_score < s then { st with best_score := s } else st
  | none => st

/-- `args.keep_only_increasing && score_re.is_some() && !is_increasing`. -/
def coverage_gate (cfg : DriverCfg) (st : DriverState) (cov : Option ℕ) : Bool :=
  cfg.keep_only_increasing && cfg.scoreEnabled &&
    !(match cov with
      | some s => decide (st.best_score < s)
      | none => false)

/-- `if seen.insert(sig) { [crashes += 1;] write sig.js; write sig.stderr.txt }`,
plus the specification-only `interesting` trace appended before the dedup
check.  The crash counter is incremented only for crash-kind (non-timeout)
recordings, as in the code. -/
def record_artifact (st : DriverState) (sig : List Char) (isTimeout : Bool) (i : ℕ) :
    DriverState :=
  let st1 := { st with interesting := st.interesting ++ [sig] }
  if st1.seen.contains sig then st1
  else { st1 with
    seen := st1.seen ++ [sig],
    crashes := (if isTimeout then st1.crashes else st1.crashes + 1),
    files := st1.files ++ [⟨true, isTimeout, i, sig⟩, ⟨false, isTimeout, i, sig⟩] }

/-- One iteration of the triage/dedup part of `main`'s loop. -/
def driverStep (cfg : DriverCfg) (st : DriverState) (i : ℕ) (inp : IterInput) : DriverState :=
  let st1 := bump_syn st inp.stderr
  if inp.timed_out then
    if coverage_gate cfg st1 inp.covScore then st1
    else
      let st2 := upd_best st1 inp.covScore
      let st3 := { st2 with timeouts := st2.timeouts + 1 }
      record_artifact st3 (crash_signature inp.stderr) true i
  else if inp.status ≠ 0 ∧ is_syntax_error inp.stderr = false then
    if hasSub (String.toList "ReferenceError:") inp.stderr &&
        !hasSub (String.toList "prototype") inp.stderr then st1
    else if coverage_gate cfg st1 inp.covScore then st1
    else record_artifact (upd_best st1 inp.covScore) (crash_signature inp.stderr) false i
  else st1

/-- The whole run's triage, iteration indices threaded as in `for i in
0..iters`. -/
def driverRun (cfg : DriverCfg) (inputs : List IterInput) : DriverState :=
  (inputs.enum).foldl (fun st p => driverStep cfg st p.1 p.2) initState

/-- Master invariant of the triage state: the `.js` artifact signatures, in
write order, are exactly `seen`; same for the `.stderr.txt` artifacts;
`seen` has no duplicates; and `seen` holds exactly the signatures that ever
passed the gates. -/
def DriverInv (st : DriverState) : Prop :=
  (st.files.filter (fun f => f.isJs)).map FileRec.sig = st.seen ∧
  (st.files.filter (fun f => !f.isJs)).map FileRec.sig = st.seen ∧
  st.seen.Nodup ∧
  st.seen.toFinset = st.interesting.toFinset

theorem bump_syn_fields (st : DriverState) (e : List Char) :
    (bump_syn st e).seen = st.seen ∧ (bump_syn st e).files = st.files ∧
      (bump_syn st e).interesting = st.interesting := by
  unfold bump_syn
  split <;> exact ⟨rfl, rfl, rfl⟩

theorem upd_best_fields (st : DriverState) (cov : Option ℕ) :
    (upd_best st cov).seen = st.seen ∧ (upd_best st cov).files = st.files ∧
      (upd_best st cov).interesting = st.interesting := by
  unfold upd_best
  split
  · split <;> exact ⟨rfl, rfl, rfl⟩
  · exact ⟨rfl, rfl, rfl⟩

theorem DriverInv_congr {st st' : DriverState}
    (hs : st'.seen = st.seen) (hf : st'.files = st.files)
    (hi : st'.interesting = st.interesting) (h : DriverInv st) : DriverInv st' := by
  obtain ⟨h1, h2, h3, h4⟩ := h
  exact ⟨by rw [hf, hs]; exact h1, by rw [hf, hs]; exact h2, by rw [hs]; exact h3,
    by rw [hs, hi]; exact h4⟩

theorem record_artifact_inv (st : DriverState) (sig : List Char) (tk : Bool) (i : ℕ)
    (h : DriverInv st) : DriverInv (record_artifact st sig tk i) := by
  obtain ⟨h1, h2, h3, h4⟩ := h
  have hrw : record_artifact st sig tk i =
      if st.seen.contains sig then { st with interesting := st.interesting ++ [sig] }
      else { st with
        interesting := st.interesting ++ [sig],
        seen := st.seen ++ [sig],
        crashes := (if tk then st.crashes else st.crashes + 1),
        files := st.files ++ [⟨true, tk, i, sig⟩, ⟨false, tk, i, sig⟩] } := rfl
  rw [hrw]
  by_cases hc : st.seen.contains sig = true
  · rw [if_pos hc]
    -- duplicate: only the `interesting` trace grows
    have hmem : sig ∈ st.seen.toFinset := List.mem_toFinset.mpr (List.elem_iff.mp hc)
    refine ⟨h1, h2, h3, ?_⟩
    have habs : st.interesting.toFinset ∪ [sig].toFinset = st.interesting.toFinset := by
      apply Finset.union_eq_left.mpr
      intro x hx
      simp only [List.toFinset_cons, List.toFinset_nil, insert_emptyc_eq,
        Finset.mem_singleton] at hx
      rw [hx, ← h4]
      exact hmem
    show st.seen.toFinset = (st.interesting ++ [sig]).toFinset
    rw [List.toFinset_append, habs, h4]
  · rw [if_neg hc]
    have hc' : st.seen.contains sig = false := by
      rw [← Bool.not_eq_true]
      exact hc
    have hnot : sig ∉ st.seen := by
      intro hmem
      have hh : st.seen.contains sig = true := List.elem_iff.mpr hmem
      rw [hh] at hc'
      exact absurd hc' (by simp)
    refine ⟨?_, ?_, ?_, ?_⟩
    · show (List.filter _ (st.files ++ _)).map FileRec.sig = st.seen ++ [sig]
      rw [List.filter_append, List.map_append, h1]
      rfl
    · show (List.filter _ (st.files ++ _)).map FileRec.sig = st.seen ++ [sig]
      rw [List.filter_append, List.map_append, h2]
      rfl
    · show (st.seen ++ [sig]).Nodup
      rw [List.nodup_append]
      exact ⟨h3, List.nodup_singleton _,
        fun a ha hb => hnot ((List.mem_singleton.mp hb) ▸ ha)⟩
    · show (st.seen ++ [sig]).toFinset = (st.interesting ++ [sig]).toFinset
      rw [List.toFinset_append, List.toFinset_append, h4]

theorem driverStep_inv (cfg : DriverCfg) (st : DriverState) (i : ℕ) (inp : IterInput)
    (h : DriverInv st) : DriverInv (driverStep cfg st i inp) := by
  obtain ⟨hb1, hb2, hb3⟩ := bump_syn_fields st inp.stderr
  have h1 : DriverInv (bump_syn st inp.stderr) := DriverInv_congr hb1 hb2 hb3 h
  obtain ⟨hu1, hu2, hu3⟩ := upd_best_fields (bump_syn st inp.stderr) inp.covScore
  have h2 : DriverInv (upd_best (bump_syn st inp.stderr) inp.covScore) :=
    DriverInv_congr hu1 hu2 hu3 h1
  have hrw : driverStep cfg st i inp =
      (if inp.timed_out then
        (if coverage_gate cfg (bump_syn st inp.stderr) inp.covScore then
          bump_syn st inp.stderr
         else record_artifact
           { upd_best (bump_syn st inp.stderr) inp.covScore with
               timeouts := (upd_best (bump_syn st inp.stderr) inp.covScore).timeouts + 1 }
           (crash_signature inp.stderr) true i)
      else if inp.status ≠ 0 ∧ is_syntax_error inp.stderr = false then
        (if hasSub (String.toList "ReferenceError:") inp.stderr &&
            !hasSub (String.toList "prototype") inp.stderr then
          bump_syn st inp.stderr
         else if coverage_gate cfg (bump_syn st inp.stderr) inp.covScore then
          bump_syn st inp.stderr
         else record_artifact (upd_best (bump_syn st inp.stderr) inp.covScore)
           (crash_signature inp.stderr) false i)
      else bump_syn st inp.stderr) := rfl
  rw [hrw]
  split
  · split
    · exact h1
    · exact record_artifact_inv _ _ _ _ (DriverInv_congr rfl rfl rfl h2)
  · split
    · split
      · exact h1
      · split
        · exact h1
        · exact record_artifact_inv _ _ _ _ h2
    · exact h1

theorem foldl_preserves {σ π : Type} (P : σ → Prop) (f : σ → π → σ)
    (hstep : ∀ s p, P s → P (f s p)) : ∀ (l : List π) (s : σ), P s → P (l.foldl f s) := by
  intro l
  induction l with
  | nil => intro s hs; exact hs
  | cons p ps ih =>
    intro s hs
    rw [List.foldl_cons]
    exact ih _ (hstep s p hs)

theorem driverRun_inv (cfg : DriverCfg) (inputs : List IterInput) :
    DriverInv (driverRun cfg inputs) :=
  foldl_preserves DriverInv _
    (fun s p hp => driverStep_inv cfg s p.1 p.2 hp) inputs.enum initState
    ⟨rfl, rfl, List.nodup_nil, rfl⟩

theorem record_artifact_eq (st : DriverState) (sig : List Char) (tk : Bool) (i : ℕ) :
    record_artifact st sig tk i =
      if st.seen.contains sig then { st with interesting := st.interesting ++ [sig] }
      else { st with
        interesting := st.interesting ++ [sig],
        seen := st.seen ++ [sig],
        crashes := (if tk then st.crashes else st.crashes + 1),
        files := st.files ++ [⟨true, tk, i, sig⟩, ⟨false, tk, i, sig⟩] } := rfl

theorem record_artifact_seen (st : DriverState) (sig : List Char) (tk : Bool) (i : ℕ) :
    (record_artifact st sig tk i).seen = st.seen ∨
      (record_artifact st sig tk i).seen = st.seen ++ [sig] := by
  rw [record_artifact_eq]
  split
  · exact Or.inl rfl
  · exact Or.inr rfl

theorem record_artifact_files (st : DriverState) (sig : List Char) (tk : Bool) (i : ℕ) :
    ∀ f ∈ (record_artifact st sig tk i).files,
      f ∈ st.files ∨ (f.sig = sig ∧ f.isTimeoutKind = tk) := by
  rw [record_artifact_eq]
  split
  · intro f hf
    exact Or.inl hf
  · intro f hf
    rcases List.mem_append.mp hf with hf | hf
    · exact Or.inl hf
    · rcases List.mem_cons.mp hf with rfl | hf
      · exact Or.inr ⟨rfl, rfl⟩
      · rcases List.mem_cons.mp hf with rfl | hf
        · exact Or.inr ⟨rfl, rfl⟩
        · exact absurd hf (by simp)

/-- The branch structure of `driverStep`, with the `let`s resolved. -/
theorem driverStep_eq (cfg : DriverCfg) (st : DriverState) (i : ℕ) (inp : IterInput) :
    driverStep cfg st i inp =
      (if inp.timed_out then
        (if coverage_gate cfg (bump_syn st inp.stderr) inp.covScore then
          bump_syn st inp.stderr
         else record_artifact
           { upd_best (bump_syn st inp.stderr) inp.covScore with
               timeouts := (upd_best (bump_syn st inp.stderr) inp.covScore).timeouts + 1 }
           (crash_signature inp.stderr) true i)
      else if inp.status ≠ 0 ∧ is_syntax_error inp.stderr = false then
        (if hasSub (String.toList "ReferenceError:") inp.stderr &&
            !hasSub (String.toList "prototype") inp.stderr then
          bump_syn st inp.stderr
         else if coverage_gate cfg (bump_syn st inp.stderr) inp.covScore then
          bump_syn st inp.stderr
         else record_artifact (upd_best (bump_syn st inp.stderr) inp.covScore)
           (crash_signature inp.stderr) false i)
      else bump_syn st inp.stderr) := rfl

theorem driverStep_seen_mono (cfg : DriverCfg) (st : DriverState) (i : ℕ) (inp : IterInput) :
    st.seen <+: (driverStep cfg st i inp).seen := by
  obtain ⟨hb1, _, _⟩ := bump_syn_fields st inp.stderr
  obtain ⟨hu1, _, _⟩ := upd_best_fields (bump_syn st inp.stderr) inp.covScore
  have hrec : ∀ (st' : DriverState) (tk : Bool), st'.seen = st.seen →
      st.seen <+: (record_artifact st' (crash_signature inp.stderr) tk i).seen := by
    intro st' tk hseen
    rcases record_artifact_seen st' (crash_signature inp.stderr) tk i with he | he
    · rw [he, hseen]
    · rw [he, hseen]
      exact ⟨[crash_signature inp.stderr], rfl⟩
  rw [driverStep_eq]
  split
  · split
    · rw [hb1]
    · exact hrec _ _ (by rw [hu1, hb1])
  · split
    · split
      · rw [hb1]
      · split
        · rw [hb1]
        · exact hrec _ _ (by rw [hu1, hb1])
    · rw [hb1]

theorem filter_sig_le_one :
    ∀ L : List FileRec, (L.map FileRec.sig).Nodup → ∀ σ : List Char,
      (L.filter (fun f => decide (f.sig = σ))).length ≤ 1 := by
  intro L
  induction L with
  | nil => intro _ σ; simp
  | cons f fs ih =>
    intro h σ
    rw [List.map_cons, List.nodup_cons] at h
    obtain ⟨hnot, hnd⟩ := h
    rw [List.filter_cons]
    split
    next heq =>
      have hfs : fs.filter (fun f => decide (f.sig = σ)) = [] := by
        rw [List.filter_eq_nil_iff]
        intro g hg
        simp only [decide_eq_true_eq]
        intro hgs
        apply hnot
        have hfσ : f.sig = σ := by simpa using heq
        rw [hfσ, ← hgs]
        exact List.mem_map_of_mem FileRec.sig hg
      rw [hfs]
      simp
    next =>
      exact le_trans (ih hnd σ) (by omega)

theorem length_le_one_of_const {α : Type} [DecidableEq α] {l : List α} {v : α}
    (hnd : l.Nodup) (hall : ∀ x ∈ l, x = v) : l.length ≤ 1 := by
  match l with
  | [] => simp
  | [x] => simp
  | x :: y :: t =>
    exfalso
    rw [List.nodup_cons] at hnd
    apply hnd.1
    rw [hall x (by simp), hall y (by simp)]
    simp

/-- C5.  In any driver run: (i) the `Seen` set only grows at every step;
(ii) for every signature at most one `.js` and at most one `.stderr.txt`
artifact is ever written; (iii) the number of `.js` artifacts equals the
cardinality of the set of signatures classified as interesting (those that
passed the gates). -/
theorem C5_deduplication (cfg : DriverCfg) (inputs : List IterInput) :
    (∀ (st : DriverState) (i : ℕ) (inp : IterInput),
      st.seen <+: (driverStep cfg st i inp).seen) ∧
    (∀ sig : List Char,
      (((driverRun cfg inputs).files.filter (fun f => f.isJs)).filter
        (fun f => decide (f.sig = sig))).length ≤ 1 ∧
      (((driverRun cfg inputs).files.filter (fun f => !f.isJs)).filter
        (fun f => decide (f.sig = sig))).length ≤ 1) ∧
    ((driverRun cfg inputs).files.filter (fun f => f.isJs)).length =
      ((driverRun cfg inputs).interesting.toFinset).card := by
  obtain ⟨h1, h2, h3, h4⟩ := driverRun_inv cfg inputs
  refine ⟨fun st i inp => driverStep_seen_mono cfg st i inp, ?_, ?_⟩
  · intro sig
    constructor
    · exact filter_sig_le_one _ (by rw [h1]; exact h3) sig
    · exact filter_sig_le_one _ (by rw [h2]; exact h3) sig
  · calc ((driverRun cfg inputs).files.filter (fun f => f.isJs)).length
        = (((driverRun cfg inputs).files.filter (fun f => f.isJs)).map FileRec.sig).length :=
          (List.length_map _ _).symm
      _ = (driverRun cfg inputs).seen.length := by rw [h1]
      _ = ((driverRun cfg inputs).seen.toFinset).card :=
          (List.toFinset_card_of_nodup h3).symm
      _ = ((driverRun cfg inputs).interesting.toFinset).card := by rw [h4]

/-- C7.  A non-timeout, nonzero-status, non-syntax-error outcome whose
stderr mentions `ReferenceError:` but not `prototype` is discarded as
boring: the entire driver state is unchanged — no artifact, no `Seen`
insertion, no counter change. -/
theorem C7_boring_reference_error_discard (cfg : DriverCfg) (st : DriverState) (i : ℕ)
    (inp : IterInput)
    (h1 : inp.timed_out = false) (h2 : inp.status ≠ 0)
    (h3 : is_syntax_error inp.stderr = false)
    (h4 : hasSub (String.toList "ReferenceError:") inp.stderr = true)
    (h5 : hasSub (String.toList "prototype") inp.stderr = false) :
    driverStep cfg st i inp = st := by
  have hb : bump_syn st inp.stderr = st := by
    unfold bump_syn
    rw [h3]
    simp
  rw [driverStep_eq, h1]
  rw [if_neg (by simp)]
  rw [if_pos ⟨h2, h3⟩]
  rw [h4, h5]
  rw [if_pos (by simp)]
  exact hb

/-- Witness for C7. -/
theorem C7_boring_reference_error_discard_witness :
    driverStep ⟨false, false⟩ initState 0
      ⟨String.toList "ReferenceError: foo is not defined", 1, false, none⟩ = initState :=
  C7_boring_reference_error_discard ⟨false, false⟩ initState 0
    ⟨String.toList "ReferenceError: foo is not defined", 1, false, none⟩
    rfl (by decide) (by decide) (by decide) (by decide)

theorem foldl_preserves_mem {σ π : Type} (P : σ → Prop) (R : π → Prop)
    (f : σ → π → σ) (hstep : ∀ s p, R p → P s → P (f s p)) :
    ∀ l : List π, (∀ p ∈ l, R p) → ∀ s, P s → P (l.foldl f s) := by
  intro l
  induction l with
  | nil => intro _ s hs; exact hs
  | cons p ps ih =>
    intro hR s hs
    rw [List.foldl_cons]
    exact ih (fun q hq => hR q (by simp [hq])) _ (hstep s p (hR p (by simp)) hs)

theorem driverStep_timeout_files (cfg : DriverCfg) (st : DriverState) (i : ℕ)
    (inp : IterInput) :
    ∀ f ∈ (driverStep cfg st i inp).files, f ∈ st.files ∨
      (f.sig = crash_signature inp.stderr ∧ (f.isTimeoutKind = true → inp.timed_out = true)) := by
  obtain ⟨_, hb2, _⟩ := bump_syn_fields st inp.stderr
  obtain ⟨_, hu2, _⟩ := upd_best_fields (bump_syn st inp.stderr) inp.covScore
  rw [driverStep_eq]
  split
  next htm =>
    split
    · intro f hf
      rw [hb2] at hf
      exact Or.inl hf
    · intro f hf
      rcases record_artifact_files _ _ _ _ f hf with hf | ⟨hs, ht⟩
      · rw [show ({ upd_best (bump_syn st inp.stderr) inp.covScore with
            timeouts := (upd_best (bump_syn st inp.stderr) inp.covScore).timeouts + 1} :
            DriverState).files = (upd_best (bump_syn st inp.stderr) inp.covScore).files
          from rfl, hu2, hb2] at hf
        exact Or.inl hf
      · exact Or.inr ⟨hs, fun _ => htm⟩
  · split
    · split
      · intro f hf
        rw [hb2] at hf
        exact Or.inl hf
      · split
        · intro f hf
          rw [hb2] at hf
          exact Or.inl hf
        · intro f hf
          rcases record_artifact_files _ _ _ _ f hf with hf | ⟨hs, ht⟩
          · rw [hu2, hb2] at hf
            exact Or.inl hf
          · refine Or.inr ⟨hs, fun hcon => ?_⟩
            rw [ht] at hcon
            exact absurd hcon (by simp)
    · intro f hf
      rw [hb2] at hf
      exact Or.inl hf

theorem driverRun_timeout_sigs (cfg : DriverCfg) (inputs : List IterInput)
    (h : ∀ inp ∈ inputs, inp.timed_out = true → inp.stderr = String.toList "timeout") :
    ∀ f ∈ (driverRun cfg inputs).files, f.isTimeoutKind = true →
      f.sig = crash_signature (String.toList "timeout") := by
  unfold driverRun
  refine foldl_preserves_mem
    (fun st => ∀ f ∈ st.files, f.isTimeoutKind = true →
      f.sig = crash_signature (String.toList "timeout"))
    (fun p => p.2.timed_out = true → p.2.stderr = String.toList "timeout")
    (fun st p => driverStep cfg st p.1 p.2) ?_ inputs.enum ?_ initState ?_
  · intro s p hR hs f hf htk
    rcases driverStep_timeout_files cfg s p.1 p.2 f hf with hf | ⟨hsig, himp⟩
    · exact hs f hf htk
    · rw [hsig, hR (himp htk)]
  · intro p hp
    have hmem : p.2 ∈ inputs := by
      have hg := List.mem_enum_iff_getElem?.mp hp
      exact List.getElem?_mem hg
    exact h p.2 hmem
  · intro f hf _
    exact absurd hf (by simp [initState])

/-- C10 (implicit).  Every timed-out run's stderr is the constant
`"timeout"` (see C6), so all timeout recordings share one signature; with
the `Seen` dedup this means at most one timeout artifact pair is written in
a whole session, however many distinct programs time out. -/
theorem C10_single_timeout_artifact (cfg : DriverCfg) (inputs : List IterInput)
    (h : ∀ inp ∈ inputs, inp.timed_out = true → inp.stderr = String.toList "timeout") :
    (((driverRun cfg inputs).files.filter (fun f => f.isJs)).filter
      (fun f => f.isTimeoutKind)).length ≤ 1 := by
  obtain ⟨h1, _, h3, _⟩ := driverRun_inv cfg inputs
  set L := (driverRun cfg inputs).files.filter (fun f => f.isJs) with hL
  have hnd : (L.map FileRec.sig).Nodup := by rw [hL, h1]; exact h3
  have hsub : (L.filter (fun f => f.isTimeoutKind)).Sublist L := List.filter_sublist _
  have hnd2 : ((L.filter (fun f => f.isTimeoutKind)).map FileRec.sig).Nodup :=
    List.Nodup.sublist (hsub.map FileRec.sig) hnd
  have hall : ∀ x ∈ (L.filter (fun f => f.isTimeoutKind)).map FileRec.sig,
      x = crash_signature (String.toList "timeout") := by
    intro x hx
    obtain ⟨f, hf, rfl⟩ := List.mem_map.mp hx
    have hf1 := List.mem_of_mem_filter hf
    have htk := List.of_mem_filter hf
    have hf2 : f ∈ (driverRun cfg inputs).files := by
      rw [hL] at hf1
      exact List.mem_of_mem_filter hf1
    exact driverRun_timeout_sigs cfg inputs h f hf2 htk
  calc (L.filter (fun f => f.isTimeoutKind)).length
      = ((L.filter (fun f => f.isTimeoutKind)).map FileRec.sig).length :=
        (List.length_map _ _).symm
    _ ≤ 1 := length_le_one_of_const hnd2 hall

/-- Witness for C10: one timed-out iteration with the canonical stderr. -/
theorem C10_single_timeout_artifact_witness :
    (((driverRun ⟨false, false⟩ [⟨String.toList "timeout", -1, true, none⟩]).files.filter
      (fun f => f.isJs)).filter (fun f => f.isTimeoutKind)).length ≤ 1 :=
  C10_single_timeout_artifact ⟨false, false⟩ [⟨String.toList "timeout", -1, true, none⟩]
    (by intro inp hinp _
        rcases List.mem_singleton.mp hinp
        rfl)

/-! ## Extractor AST path and its randomness source (lib.rs 74-144)

`Extractor::extract` parses with the external tree-sitter parser; the walk
acts only on `number` and `identifier` nodes, so the tree is modelled as the
list of those nodes (kind, byte range, and whether the parent's kind is
`variable_declarator`, `function_declaration` or `class_declaration`),
together with the dataflow composite map.  Crucially, the coin for each
identifier is drawn from `rand::thread_rng()` — a thread-local global
source created inside `extract` — and NOT from any rng passed by the
caller.  `rng.gen::<f64>()` yields the dyadic rational `m / 2^53` for a
53-bit mantissa `m`; the global stream is modelled as the mantissa stream
`ℕ → ℕ`, and the comparison `coin < w / (t / 8)` as the exact integer
comparison `m * t < 8 * w * 2^53` (the concrete comparisons below are
robust to f64 rounding of `w / (t / 8)`). -/

inductive NodeKind | number | identifier | other
deriving DecidableEq

structure AstNode where
  kind : NodeKind
  start : ℕ
  stop : ℕ
  /-- parent's kind is one of the three declaration-naming kinds -/
  parentDecl : Bool

/-- `weights.get(name).unwrap_or(&1)`. -/
def dfcompLookup (comp : List (List Char × ℕ)) (name : List Char) : ℕ :=
  match comp.find? (fun x => x.1 == name) with
  | some x => x.2
  | none => 1

/-- The edit-collection walk of `Extractor::extract`: numbers become
`<integer>`; each identifier draws one coin from the global stream and
becomes `<var>` when `coin < dfcomp(name) / (total/8)` and its parent is a
declaration.  Returns the edits and the number of coins consumed. -/
def extractEdits (src : List Char) (nodes : List AstNode) (comp : List (List Char × ℕ))
    (total : ℕ) (g : ℕ → ℕ) : List (ℕ × ℕ × List Char) × ℕ :=
  nodes.foldl (fun acc n =>
    match n.kind with
    | NodeKind.number => (acc.1 ++ [(n.start, n.stop, tokInt)], acc.2)
    | NodeKind.identifier =>
        let name := (src.drop n.start).take (n.stop - n.start)
        let w := dfcompLookup comp name
        let t := if total = 0 then 1 else total
        if g acc.2 * t < 8 * w * 2 ^ 53 ∧ n.parentDecl then
          (acc.1 ++ [(n.start, n.stop, tokVar)], acc.2 + 1)
        else (acc.1, acc.2 + 1)
    | NodeKind.other => acc) ([], 0)

/-- Stable insertion into a list sorted by decreasing start offset. -/
def insertEditDesc (e : ℕ × ℕ × List Char) :
    List (ℕ × ℕ × List Char) → List (ℕ × ℕ × List Char)
  | [] => [e]
  | x :: xs => if x.1 < e.1 then e :: x :: xs else x :: insertEditDesc e xs

/-- `edits.sort_by_key(|e| Reverse(e.0))` (stable, descending by start). -/
def sortEditsDesc (edits : List (ℕ × ℕ × List Char)) : List (ℕ × ℕ × List Char) :=
  edits.foldr insertEditDesc []

/-- `Extractor::extract`, AST path, as a function of the source, the parsed
node list, the dataflow composite, and the global `thread_rng` stream. -/
def extractAst (src : List Char) (nodes : List AstNode) (comp : List (List Char × ℕ))
    (total : ℕ) (g : ℕ → ℕ) : List Char :=
  applyEdits src (sortEditsDesc (extractEdits src nodes comp total g).1)

/-- The pipeline with both randomness sources explicit: the thread-local
global stream (`globalRng`) and the PRNG capability threaded by the driver
(`threadedRng`).  `extract` reads only the global stream; the mutator and
concretizer read only their explicit argument. -/
def extractM (globalRng : ℕ → ℕ) (_threadedRng : ℕ → ℕ) (src : List Char)
    (nodes : List AstNode) (comp : List (List Char × ℕ)) (total : ℕ) : List Char :=
  extractAst src nodes comp total globalRng

def substituteM (_globalRng : ℕ → ℕ) (threadedRng : ℕ → ℕ) (tpl : List Char) : List Char :=
  Mutator.substitute_placeholder tpl threadedRng

def insertFallbackM (_globalRng : ℕ → ℕ) (threadedRng : ℕ → ℕ) (tpl : List Char) : List Char :=
  insert_placeholder_fallback tpl (threadedRng 0 % ((splitOnNl tpl).length + 1))

def concretizeM (_globalRng : ℕ → ℕ) (threadedRng : ℕ → ℕ) (tpl : List Char) : List Char :=
  concretize tpl threadedRng

/-- The tree-sitter nodes acted on for
`"let q = 0;\nz+z+z+z+z+z+z+z;"`: the number `0` (bytes 8-9, parent
`variable_declarator`), the declarator name `q` (bytes 4-5, parent
`variable_declarator`), and the eight uses of `z` (parents
`binary_expression`).  Nodes of other kinds are no-ops in the walk and are
omitted; the walk order does not matter here because the coin streams used
below are constant. -/
def c9Nodes : List AstNode :=
  [⟨NodeKind.identifier, 11, 12, false⟩, ⟨NodeKind.identifier, 13, 14, false⟩,
   ⟨NodeKind.identifier, 15, 16, false⟩, ⟨NodeKind.identifier, 17, 18, false⟩,
   ⟨NodeKind.identifier, 19, 20, false⟩, ⟨NodeKind.identifier, 21, 22, false⟩,
   ⟨NodeKind.identifier, 23, 24, false⟩, ⟨NodeKind.identifier, 25, 26, false⟩,
   ⟨NodeKind.number, 8, 9, false⟩, ⟨NodeKind.identifier, 4, 5, true⟩]

/-- The dataflow composite of that source: `q` defined once and never used
(its occurrence is the declarator name, which the use pass skips), `z` the
assignment? no — eight uses in the expression; total 9. -/
def c9Comp : List (List Char × ℕ) := [(String.toList "q", 1), (String.toList "z", 8)]

/-- C9, counterexample.  Two runs on the same source with the *same*
threaded PRNG state but different thread-local global streams (all-zero
mantissas, coin `0`, vs all-`2^53 - 1` mantissas, coin `1 - 2^-53`;
`dfcomp(q)/(total/8) = 8/9` lies strictly between them, far from the f64
rounding error of `w/(t/8)`) produce different templates: `extract` draws
from `rand::thread_rng()`, not from a threaded capability. -/
theorem C9_randomness_capability_cex :
    extractM (fun _ => 0) (fun _ => 0) (String.toList "let q = 0;\nz+z+z+z+z+z+z+z;")
        c9Nodes c9Comp 9 =
      String.toList "let <var> = <integer>;\nz+z+z+z+z+z+z+z;" ∧
    extractM (fun _ => 2 ^ 53 - 1) (fun _ => 0)
        (String.toList "let q = 0;\nz+z+z+z+z+z+z+z;") c9Nodes c9Comp 9 =
      String.toList "let q = <integer>;\nz+z+z+z+z+z+z+z;" ∧
    extractM (fun _ => 0) (fun _ => 0) (String.toList "let q = 0;\nz+z+z+z+z+z+z+z;")
        c9Nodes c9Comp 9 ≠
      extractM (fun _ => 2 ^ 53 - 1) (fun _ => 0)
        (String.toList "let q = 0;\nz+z+z+z+z+z+z+z;") c9Nodes c9Comp 9 := by
  refine ⟨by decide, by decide, ?_⟩
  rw [show extractM (fun _ => 0) (fun _ => 0)
      (String.toList "let q = 0;\nz+z+z+z+z+z+z+z;") c9Nodes c9Comp 9 =
      String.toList "let <var> = <integer>;\nz+z+z+z+z+z+z+z;" from by decide]
  rw [show extractM (fun _ => 2 ^ 53 - 1) (fun _ => 0)
      (String.toList "let q = 0;\nz+z+z+z+z+z+z+z;") c9Nodes c9Comp 9 =
      String.toList "let q = <integer>;\nz+z+z+z+z+z+z+z;" from by decide]
  decide

/-- C9, amended.  The randomness sources, made explicit: `extract`'s output
is a function of the source, the parse, and the thread-local global stream
only — it is invariant under the threaded PRNG capability, which it never
reads; conversely `substitute_placeholder`, the insertion fallback and the
concretizer read only the explicitly threaded rng and are invariant under
the global stream. -/
theorem C9_randomness_capability_amended :
    (∀ (g : ℕ → ℕ) (t1 t2 : ℕ → ℕ) (src : List Char) (nodes : List AstNode)
        (comp : List (List Char × ℕ)) (total : ℕ),
      extractM g t1 src nodes comp total = extractM g t2 src nodes comp total) ∧
    (∀ (g1 g2 : ℕ → ℕ) (t : ℕ → ℕ) (tpl : List Char),
      substituteM g1 t tpl = substituteM g2 t tpl ∧
      insertFallbackM g1 t tpl = insertFallbackM g2 t tpl ∧
      concretizeM g1 t tpl = concretizeM g2 t tpl) :=
  ⟨fun _ _ _ _ _ _ _ => rfl, fun _ _ _ _ => ⟨rfl, rfl, rfl⟩⟩

/-- Witness for the amended C1 at concrete inputs. -/
theorem C1_token_closure_amended_witness :
    closed (extract_fallback (String.toList "let x = 1;")) ∧
    closed (applyEdits (String.toList "let x = 1;") [(8, 9, tokInt)]) ∧
    closed (insert_at_node (String.toList "let x = 1;") 0 (String.toList "let <var> = <integer>;")) ∧
    closed (insert_placeholder_fallback (String.toList "let x = 1;") 0) ∧
    closed (Mutator.substitute_placeholder (String.toList "let x = 1;") (fun _ => 0)) ∧
    closed (Mutator.fuse (String.toList "x = 1;") (String.toList "y = 2;")) :=
  C1_token_closure_amended (String.toList "let x = 1;") (String.toList "x = 1;")
    (String.toList "y = 2;") (String.toList "let <var> = <integer>;") 0 0 (fun _ => 0)
    [(8, 9, tokInt)]
    (closed_of_closedB (by decide)) (closed_of_closedB (by decide))
    (closed_of_closedB (by decide)) (by decide) (by decide)

/-- C1, counterexample.  The template `"<a<var>b>"` satisfies token closure
(its only `<[a-z_]+>` match is `<var>`), yet `delete_placeholder` turns it
into `"<ab>"`, in which the substring `"<ab>"` matches `<[a-z_]+>` but is
none of `<var>`, `<integer>`, `<code_str>`. -/
theorem C1_token_closure_cex :
    closed (String.toList "<a<var>b>") ∧
    Mutator.delete_placeholder (String.toList "<a<var>b>") = String.toList "<ab>" ∧
    holePat (String.toList "<ab>") ∧
    (String.toList "<ab>") <:+: Mutator.delete_placeholder (String.toList "<a<var>b>") ∧
    (String.toList "<ab>") ∉ vocab := by
  have h : Mutator.delete_placeholder (String.toList "<a<var>b>") = String.toList "<ab>" := by
    decide
  refine ⟨closed_of_closedB (by decide), h, (holePat_iff _).mpr (by decide), ?_, by decide⟩
  rw [h]

end Kre8
